import Mathlib

/-!
Verification of the rua pipeline: lexer (src/lex/mod.rs, src/lex/string.rs),
single-pass compiler (src/parse.rs) and register VM (src/vm.rs).

Modelling conventions for the shallow embedding:
- Rust machine integers are Lean Int/Nat; `as u8` truncation is `% 256`,
  range checks (`i16::try_from`, `i64` parsing) are explicit interval tests.
- Rust f64 literals never fail to parse; their numeric payload is modelled by
  the exact rational value of the numeral (the mathematical value of the
  recognized digits), since bit-level floating point is outside the model.
- Byte strings (TinyVec / LossyStr) are Lean lists of byte values (Nat).
  Inline/heap representation is immaterial to structural equality here
  because the inline buffer tail is zero-filled, so list equality is the
  faithful equality.
- nom parsers become functions from a list of characters to an optional pair
  of remaining input and result; alternation order follows the source.
  Streaming combinators returning Incomplete are modelled as failure.
- Fallible Rust code returns Except; panics (slice indexing, unwrap) are the
  distinguished error `RunError.panicked`, and the `assert_eq!` inside
  `ExeState::set_stack` is the distinguished error `RunError.assertFail`.
-/

namespace Rua

/-- Tokens produced by the lexer, mirroring enum Token in src/lex/mod.rs. -/
inductive Token where
  | And | Break | Do | Else | Elseif | End
  | False | For | Function | Goto | If | In
  | Local | Nil | Not | Or | Repeat | Return
  | Then | True | Until | While
  | Add | Sub | Mul | Div | Mod | Pow | Len
  | BitAnd | BitXor | BitOr | ShiftL | ShiftR | Idiv
  | Equal | NotEq | LesEq | GreEq | Less | Greater | Assign
  | ParL | ParR | CurlyL | CurlyR | SqurL | SqurR | DoubColon
  | SemiColon | Colon | Comma | Dot | Concat | Dots
  | Integer (i : Int)
  | Float (q : ℚ)
  | String (bs : List Nat)
  | Name (s : String)
  | Eof
  | Comment
deriving Repr

/-- Runtime values, mirroring enum Value in src/value.rs. The only host
function in the system is lib_print, so the Function variant carries no
payload: pointer equality on a one-element set of callables is plain
equality. Float carries the exact rational model of the f64 payload. -/
inductive Value where
  | Nil
  | Boolean (b : Bool)
  | Integer (i : Int)
  | Float (q : ℚ)
  | String (bs : List Nat)
  | Function
  | Identifier (s : String)
deriving DecidableEq, Repr

/-- Bytecode instructions, mirroring enum ByteCode in src/bytecode.rs.
All u8 operands are Nats that the compiler reduces mod 256 on emission. -/
inductive ByteCode where
  | GetGlobal (dst name : Nat)
  | Move (dst src : Nat)
  | LoadConst (dst c : Nat)
  | LoadNil (dst : Nat)
  | LoadBool (dst : Nat) (b : Bool)
  | LoadInt (dst : Nat) (i : Int)
  | Call (func nargs : Nat)
  | SetGlobalConst (gi ki : Nat)
  | SetGlobalLocal (gi src : Nat)
  | SetGlobalGlobal (lhsi rhsi : Nat)
deriving DecidableEq, Repr

/-! Character classes used by the lexer (nom character classes). -/

/-- Whitespace recognized by nom multispace0 and multispace1. -/
def isSpaceChar (c : Char) : Bool :=
  c = ' ' || c = '\t' || c = '\r' || c = '\n'

/-- ASCII decimal digit, as in nom digit1 and char::is_ascii_digit. -/
def isDigitChar (c : Char) : Bool :=
  '0' ≤ c && c ≤ '9'

/-- ASCII hexadecimal digit, as in char::is_ascii_hexdigit. -/
def isHexChar (c : Char) : Bool :=
  isDigitChar c || ('a' ≤ c && c ≤ 'f') || ('A' ≤ c && c ≤ 'F')

/-- Word characters accepted by lex_word: ASCII alphanumeric or underscore. -/
def isWordChar (c : Char) : Bool :=
  c.isAlphanum || c = '_'

def digitVal (c : Char) : Nat := c.toNat - 48

def hexVal (c : Char) : Nat :=
  if isDigitChar c then c.toNat - 48
  else if 'a' ≤ c then c.toNat - 87
  else c.toNat - 55

/-- Value of a decimal digit string, as computed by str::parse. -/
def digitsToNat (ds : List Char) : Nat :=
  ds.foldl (fun a c => 10 * a + digitVal c) 0

/-- Value of a hexadecimal digit string, as in u8::from_str_radix(s, 16). -/
def hexToNat (ds : List Char) : Nat :=
  ds.foldl (fun a c => 16 * a + hexVal c) 0

/-- UTF-8 encoding of one char, matching Rust str::as_bytes on the
verbatim literal runs copied by the string sub-lexer. -/
def charBytes (c : Char) : List Nat :=
  let n := c.toNat
  if n < 128 then [n]
  else if n < 2048 then [192 + n / 64, 128 + n % 64]
  else if n < 65536 then [224 + n / 4096, 128 + n / 64 % 64, 128 + n % 64]
  else [240 + n / 262144, 128 + n / 4096 % 64, 128 + n / 64 % 64, 128 + n % 64]

def utf8Bytes (s : List Char) : List Nat :=
  (s.map charBytes).flatten

/-- Keyword and operator table, mirroring the UNIT_TOKEN map in
src/lex/mod.rs. -/
def unitToken : String → Option Token
  | "true" => some .True
  | "false" => some .False
  | "nil" => some .Nil
  | "and" => some .And
  | "break" => some .Break
  | "do" => some .Do
  | "else" => some .Else
  | "elseif" => some .Elseif
  | "end" => some .End
  | "for" => some .For
  | "function" => some .Function
  | "goto" => some .Goto
  | "if" => some .If
  | "in" => some .In
  | "local" => some .Local
  | "not" => some .Not
  | "or" => some .Or
  | "return" => some .Return
  | "then" => some .Then
  | "while" => some .While
  | "repeat" => some .Repeat
  | "until" => some .Until
  | "<<" => some .ShiftL
  | ">>" => some .ShiftR
  | "//" => some .Idiv
  | "==" => some .Equal
  | "~=" => some .NotEq
  | "<=" => some .LesEq
  | ">=" => some .GreEq
  | "::" => some .DoubColon
  | ".." => some .Concat
  | "..." => some .Dots
  | "+" => some .Add
  | "-" => some .Sub
  | "*" => some .Mul
  | "/" => some .Div
  | "%" => some .Mod
  | "^" => some .Pow
  | "#" => some .Len
  | "&" => some .BitAnd
  | "~" => some .BitXor
  | "|" => some .BitOr
  | "<" => some .Less
  | ">" => some .Greater
  | "=" => some .Assign
  | "(" => some .ParL
  | ")" => some .ParR
  | "\x7b" => some .CurlyL
  | "\x7d" => some .CurlyR
  | "[" => some .SqurL
  | "]" => some .SqurR
  | ";" => some .SemiColon
  | ":" => some .Colon
  | "," => some .Comma
  | "." => some .Dot
  | _ => none

/-- Successful prefix match, as in nom tag. -/
def tagP (s input : List Char) : Option (List Char) :=
  if s.isPrefixOf input then some (input.drop s.length) else none

/-! String literal sub-lexer, mirroring src/lex/string.rs. -/

/-- Decimal byte escape body: nom streaming take_while_m_n(1, 3, digit)
followed by u8 parsing. Streaming Incomplete (all input consumed before
the maximum of 3 digits was reached) is modelled as failure. -/
def dec_byte (input : List Char) : Option (List Char × Nat) :=
  let ds := (input.take 3).takeWhile isDigitChar
  if ds = [] then none
  else if ds.length < 3 ∧ ds.length = input.length then none
  else
    let v := digitsToNat ds
    if v ≤ 255 then some (input.drop ds.length, v) else none

/-- Hexadecimal byte escape body: char x, then take(2) (complete, so it
fails on fewer than two remaining chars), then the maximal hex-digit
prefix of those two chars is parsed; a non-hex second char is consumed
and discarded. -/
def hex_byte (input : List Char) : Option (List Char × Nat) :=
  match input with
  | 'x' :: a :: b :: rest =>
    let hs := [a, b].takeWhile isHexChar
    if hs = [] then none else some (rest, hexToNat hs)
  | _ => none

/-- Escape decoder, mirroring escaped_char in src/lex/string.rs. The
alternatives are disjoint on their first character, so this match is the
alt of the source in order. -/
def escaped_byte (r : List Char) : Option (List Char × Nat) :=
  match dec_byte r with
  | some res => some res
  | none =>
    match hex_byte r with
    | some res => some res
    | none =>
      match r with
      | c :: rest =>
        if c = '\\' then some (rest, 92)
        else if c = '\'' then some (rest, 39)
        else if c = '"' then some (rest, 34)
        else none
      | [] => none

def escaped_char (input : List Char) : Option (List Char × Nat) :=
  match input with
  | '\\' :: r =>
    match r with
    | c :: rest =>
      if c = 'n' then some (rest, 10)
      else if c = 'r' then some (rest, 13)
      else if c = 't' then some (rest, 9)
      else if c = 'a' then some (rest, 7)
      else if c = 'b' then some (rest, 8)
      else if c = 'v' then some (rest, 11)
      else if c = 'f' then some (rest, 12)
      else escaped_byte r
    | [] => escaped_byte []
  | _ => none

/-- Escaped whitespace: backslash then streaming multispace1; Incomplete
(whitespace running to the end of input) is modelled as failure. -/
def escaped_whitespace (input : List Char) : Option (List Char) :=
  match input with
  | '\\' :: r =>
    let ws := r.takeWhile isSpaceChar
    if ws = [] then none
    else if ws.length = r.length then none
    else some (r.dropWhile isSpaceChar)
  | _ => none

inductive StringFragment where
  | Literal (s : List Char)
  | EscapedChar (c : Nat)
  | EscapedWS
deriving DecidableEq, Repr

/-- Character class of the verbatim literal fragment: is_not of quote and
backslash. -/
def isLitChar (c : Char) : Bool :=
  c ≠ '"' && c ≠ '\\'

/-- One string fragment, mirroring fragment in src/lex/string.rs. -/
def fragment (input : List Char) : Option (List Char × StringFragment) :=
  let lit := input.takeWhile isLitChar
  if lit ≠ [] then some (input.dropWhile isLitChar, .Literal lit)
  else
    match escaped_char input with
    | some (r, c) => some (r, .EscapedChar c)
    | none =>
      match escaped_whitespace input with
      | some r => some (r, .EscapedWS)
      | none => none

/-- Fuelled fold_many0 over fragments, mirroring build_string in
src/lex/string.rs. Every fragment consumes at least one char, so fuel of
the input length is always sufficient. -/
def build_string (fuel : Nat) (input : List Char) (acc : List Nat) :
    Option (List Char × List Nat) :=
  match fuel with
  | 0 => some (input, acc)
  | f + 1 =>
    match fragment input with
    | none => some (input, acc)
    | some (r, frag) =>
      let acc2 :=
        match frag with
        | .Literal s => acc ++ utf8Bytes s
        | .EscapedChar c => acc ++ [c]
        | .EscapedWS => acc
      build_string f r acc2

/-- String literal lexer, mirroring lex_string in src/lex/string.rs. -/
def lex_string (input : List Char) : Option (List Char × Token) :=
  match input with
  | c :: r =>
    if c = '"' then
      match build_string (r.length + 1) r [] with
      | some ('"' :: rest, bs) => some (rest, .String bs)
      | _ => none
    else none
  | [] => none

/-! Top-level lexer, mirroring src/lex/mod.rs. -/

/-- Character class of a comment body: is_not of the newline. -/
def isCommentChar (c : Char) : Bool :=
  c ≠ '\n'

/-- Line comment lexer: tag of two minus signs, then is_not newline
(which requires a non-empty body), then the newline itself. -/
def lex_comment (input : List Char) : Option (List Char × Token) :=
  match tagP ['-', '-'] input with
  | none => none
  | some r =>
    let body := r.takeWhile isCommentChar
    if body = [] then none
    else
      match r.dropWhile isCommentChar with
      | '\n' :: rest => some (rest, .Comment)
      | _ => none

/-- Integer literal lexer: optional minus sign, digit1, then i64 parsing
(which fails outside the signed 64-bit range). -/
def lex_integer (input : List Char) : Option (List Char × Token) :=
  let (neg, afterSign) :=
    match input with
    | c :: r => if c = '-' then (true, r) else (false, input)
    | [] => (false, input)
  let ds := afterSign.takeWhile isDigitChar
  if ds = [] then none
  else
    let v : Int := if neg then -(digitsToNat ds : Int) else (digitsToNat ds : Int)
    if -(2 ^ 63) ≤ v ∧ v ≤ 2 ^ 63 - 1 then
      some (afterSign.dropWhile isDigitChar, .Integer v)
    else none

/-- Exponent tail of a float literal: one of e or E, an optional sign,
digit1; returns the signed exponent. -/
def expSign (r : List Char) : Int × List Char :=
  match r with
  | c2 :: rr =>
    if c2 = '+' then ((1 : Int), rr)
    else if c2 = '-' then ((-1 : Int), rr)
    else ((1 : Int), r)
  | [] => ((1 : Int), r)

def expDigits (sgn : Int) (r2 : List Char) : Option (List Char × Int) :=
  let ds := r2.takeWhile isDigitChar
  if ds = [] then none
  else some (r2.dropWhile isDigitChar, sgn * (digitsToNat ds : Int))

def expPart (input : List Char) : Option (List Char × Int) :=
  match input with
  | c :: r =>
    if c = 'e' || c = 'E' then
      match expSign r with
      | (sgn, r2) => expDigits sgn r2
    else none
  | [] => none

/-- Exact rational value of a decimal numeral with integer digits ip,
fraction digits fp and signed exponent e. This is the mathematical value
of the string the source hands to f64 parsing. -/
def ratVal (ip fp : List Char) (e : Int) : ℚ :=
  ((digitsToNat ip : ℚ) + (digitsToNat fp : ℚ) / (10 : ℚ) ^ fp.length) * (10 : ℚ) ^ e

/-- Float grammar case one: point, digit1, optional exponent. -/
def float_case1 (input : List Char) : Option (List Char × ℚ) :=
  match input with
  | c :: r =>
    if c = '.' then
      let fp := r.takeWhile isDigitChar
      if fp = [] then none
      else
        let r2 := r.dropWhile isDigitChar
        match expPart r2 with
        | some (r3, e) => some (r3, ratVal [] fp e)
        | none => some (r2, ratVal [] fp 0)
    else none
  | [] => none

/-- Float grammar case two: digit1, optional point-and-digit1 fraction,
mandatory exponent. -/
def floatFrac (r : List Char) : List Char × List Char :=
  match r with
  | c :: rr =>
    if c = '.' then
      let fp := rr.takeWhile isDigitChar
      if fp = [] then (([] : List Char), r) else (fp, rr.dropWhile isDigitChar)
    else (([] : List Char), r)
  | [] => (([] : List Char), r)

def float_case2 (input : List Char) : Option (List Char × ℚ) :=
  let ip := input.takeWhile isDigitChar
  if ip = [] then none
  else
    let r := input.dropWhile isDigitChar
    match floatFrac r with
    | (fp, r2) =>
      match expPart r2 with
      | some (r3, e) => some (r3, ratVal ip fp e)
      | none => none

/-- Float grammar case three: digit1, point, optional fraction digits. -/
def float_case3 (input : List Char) : Option (List Char × ℚ) :=
  let ip := input.takeWhile isDigitChar
  if ip = [] then none
  else
    match input.dropWhile isDigitChar with
    | c :: r =>
      if c = '.' then
        let fp := r.takeWhile isDigitChar
        some (r.dropWhile isDigitChar, ratVal ip fp 0)
      else none
    | [] => none

/-- Float literal lexer: the three recognize cases in source order; the
f64 payload is modelled by the exact rational value of the numeral. -/
def lex_float (input : List Char) : Option (List Char × Token) :=
  match float_case1 input with
  | some (r, q) => some (r, .Float q)
  | none =>
    match float_case2 input with
    | some (r, q) => some (r, .Float q)
    | none =>
      match float_case3 input with
      | some (r, q) => some (r, .Float q)
      | none => none

/-- Word lexer: take_while1 of word chars, then the keyword table with a
Name fallback. -/
def lex_word (input : List Char) : Option (List Char × Token) :=
  let w := input.takeWhile isWordChar
  if w = [] then none
  else
    let s := String.mk w
    some (input.dropWhile isWordChar, (unitToken s).getD (.Name s))

/-- Multi-character operator tags in the exact order of the source alt in
lex_chars: the two-dot tag is tried before the three-dot tag. -/
def opTags : List String :=
  ["<<", ">>", "//", "==", "~=", "<=", ">=", "::", "..", "..."]

/-- Single characters accepted by the final one_of alternative of
lex_chars. -/
def singleChars : List Char :=
  ['+', '-', '*', '/', '%', '^', '#', '&', '~', '|', '<', '>', '=',
   '(', ')', '{', '}', '[', ']', ';', ':', ',', '.']

/-- Operator and punctuation lexer, mirroring lex_chars in
src/lex/mod.rs including its alternative order. -/
def lex_chars (input : List Char) : Option (List Char × Token) :=
  match opTags.findSome? (fun s =>
      (tagP s.toList input).bind fun r => (unitToken s).map fun t => (r, t)) with
  | some res => some res
  | none =>
    match input with
    | c :: r =>
      if c ∈ singleChars then (unitToken (String.mk [c])).map fun t => (r, t)
      else none
    | [] => none

/-- One lexer step, mirroring fn lex in src/lex/mod.rs: leading
whitespace, then the alternatives in source order, then Eof on empty
input. -/
def lex (input : List Char) : Option (List Char × Token) :=
  let s := input.dropWhile isSpaceChar
  match lex_string s with
  | some res => some res
  | none =>
    match lex_comment s with
    | some res => some res
    | none =>
      match lex_float s with
      | some res => some res
      | none =>
        match lex_integer s with
        | some res => some res
        | none =>
          match lex_word s with
          | some res => some res
          | none =>
            match lex_chars s with
            | some res => some res
            | none => if s = [] then some ([], .Eof) else none

/-! Single-pass compiler, mirroring src/parse.rs. -/

/-- Compiler state, mirroring struct ParseProto: constant pool, emitted
bytecode, declared locals and the lexer cursor (remaining source). -/
structure ParseProto where
  constants : List Value
  bytecodes : List ByteCode
  locals : List String
  source : List Char
deriving DecidableEq, Repr

/-- Compiler errors, mirroring ParseError in src/parse.rs: a propagated
lexing failure, or an unexpected token with the expected description. -/
inductive ParseError where
  | lexFail
  | token (actual : Token) (expected : String)
deriving Repr

/-- One call of Lexer::next on the compiler state. -/
def lexNext (st : ParseProto) : Except ParseError (Token × ParseProto) :=
  match lex st.source with
  | some (rest, t) => .ok (t, { st with source := rest })
  | none => .error .lexFail

/-- First index of a structurally equal entry, mirroring
iter().position in ParseProto::add_const. -/
def position (v : Value) : List Value → Option Nat
  | [] => none
  | x :: xs => if x = v then some 0 else (position v xs).map (· + 1)

/-- Constant pool insertion, mirroring ParseProto::add_const: reuse the
index of a structurally equal entry, otherwise append. -/
def add_const (st : ParseProto) (v : Value) : Nat × ParseProto :=
  match position v st.constants with
  | some i => (i, st)
  | none => (st.constants.length, { st with constants := st.constants ++ [v] })

/-- Mirrors ParseProto::load_const; the pool index is stored as u8. -/
def load_const (dst : Nat) (v : Value) (st : ParseProto) : ByteCode × ParseProto :=
  let (i, st2) := add_const st v
  (.LoadConst dst (i % 256), st2)

/-- Rightmost index of a local with the given name, mirroring
iter().rposition in ParseProto::local_var. -/
def rposition (name : String) : List String → Option Nat
  | [] => none
  | x :: xs =>
    match rposition name xs with
    | some i => some (i + 1)
    | none => if x = name then some 0 else none

/-- Mirrors ParseProto::load_var: a known local becomes Move from its
register, otherwise GetGlobal through a pooled Identifier constant. -/
def load_var (dst : Nat) (name : String) (st : ParseProto) : ByteCode × ParseProto :=
  match rposition name st.locals with
  | some src => (.Move dst (src % 256), st)
  | none =>
    let (i, st2) := add_const st (.Identifier name)
    (.GetGlobal dst (i % 256), st2)

/-- Mirrors ParseProto::load_exp: lower the next token as an expression
into register dst. The LoadInt shortcut applies exactly when the integer
fits in i16. -/
def load_exp (dst : Nat) (st : ParseProto) : Except ParseError (ByteCode × ParseProto) :=
  match lexNext st with
  | .error e => .error e
  | .ok (t, st1) =>
    match t with
    | .Nil => .ok (.LoadNil dst, st1)
    | .True => .ok (.LoadBool dst true, st1)
    | .False => .ok (.LoadBool dst false, st1)
    | .Integer i =>
      if -(2 ^ 15) ≤ i ∧ i ≤ 2 ^ 15 - 1 then .ok (.LoadInt dst i, st1)
      else .ok (load_const dst (.Integer i) st1)
    | .Float f => .ok (load_const dst (.Float f) st1)
    | .String s => .ok (load_const dst (.String s) st1)
    | .Name name => .ok (load_var dst name st1)
    | t2 => .error (.token t2 ("<expression>"))

/-- Mirrors ParseProto::assign: assignment into a known local register,
or one of the three set-global instructions. -/
def assign (var : String) (st : ParseProto) : Except ParseError (ByteCode × ParseProto) :=
  match rposition var st.locals with
  | some src => load_exp (src % 256) st
  | none =>
    let (gi0, st1) := add_const st (.Identifier var)
    let gi := gi0 % 256
    match lexNext st1 with
    | .error e => .error e
    | .ok (t, st2) =>
      match t with
      | .Nil =>
        let (k, st3) := add_const st2 .Nil
        .ok (.SetGlobalConst gi (k % 256), st3)
      | .True =>
        let (k, st3) := add_const st2 (.Boolean true)
        .ok (.SetGlobalConst gi (k % 256), st3)
      | .False =>
        let (k, st3) := add_const st2 (.Boolean false)
        .ok (.SetGlobalConst gi (k % 256), st3)
      | .Integer i =>
        let (k, st3) := add_const st2 (.Integer i)
        .ok (.SetGlobalConst gi (k % 256), st3)
      | .Float f =>
        let (k, st3) := add_const st2 (.Float f)
        .ok (.SetGlobalConst gi (k % 256), st3)
      | .String s =>
        let (k, st3) := add_const st2 (.String s)
        .ok (.SetGlobalConst gi (k % 256), st3)
      | .Name var2 =>
        match rposition var2 st2.locals with
        | some src => .ok (.SetGlobalLocal gi (src % 256), st2)
        | none =>
          let (k, st3) := add_const st2 (.Identifier var2)
          .ok (.SetGlobalGlobal gi (k % 256), st3)
      | t2 => .error (.token t2 ("<expression>"))

/-- Mirrors ParseProto::call_function: the callee is resolved into the
next free register and the single argument into the one after it (u8
arithmetic, hence the mod-256 reductions); both loads are pushed here
and the returned Call is pushed by the main loop. -/
def call_function (t : Token) (name : String) (st : ParseProto) :
    Except ParseError (ByteCode × ParseProto) :=
  let ifunc := st.locals.length % 256
  let iarg := (ifunc + 1) % 256
  let (code, st1) := load_var ifunc name st
  let st2 := { st1 with bytecodes := st1.bytecodes ++ [code] }
  match t with
  | .ParL =>
    match load_exp iarg st2 with
    | .error e => .error e
    | .ok (code2, st3) =>
      let st4 := { st3 with bytecodes := st3.bytecodes ++ [code2] }
      match lexNext st4 with
      | .error e => .error e
      | .ok (.ParR, st5) => .ok (.Call ifunc 1, st5)
      | .ok (t2, _) => .error (.token t2 ("`)`"))
  | .String s =>
    let (code2, st3) := load_const iarg (.String s) st2
    let st4 := { st3 with bytecodes := st3.bytecodes ++ [code2] }
    .ok (.Call ifunc 1, st4)
  | t2 => .error (.token t2 ("`(<expression>)` or string"))

/-- Statement dispatch after a leading Name token, mirroring the inner
match of the main loop: an Assign token lowers an assignment, anything
else is handed to call_function. -/
def statementCode (t2 : Token) (name : String) (st : ParseProto) :
    Except ParseError (ByteCode × ParseProto) :=
  match t2 with
  | .Assign => assign name st
  | t3 => call_function t3 name st

/-- Fuelled main loop of ParseProto::parse. Every iteration other than
the final Eof consumes at least one source char, so fuel of the source
length plus one is always sufficient; exhausted fuel is a failure. -/
def parseLoop : Nat → ParseProto → Except ParseError ParseProto
  | 0, _ => .error .lexFail
  | fuel + 1, st =>
    match lexNext st with
    | .error e => .error e
    | .ok (t, st1) =>
      match t with
      | .Local =>
        match lexNext st1 with
        | .error e => .error e
        | .ok (.Name var, st2) =>
          match lexNext st2 with
          | .error e => .error e
          | .ok (.Assign, st3) =>
            match load_exp (st3.locals.length % 256) st3 with
            | .error e => .error e
            | .ok (code, st4) =>
              parseLoop fuel { st4 with locals := st4.locals ++ [var],
                                        bytecodes := st4.bytecodes ++ [code] }
          | .ok (t2, _) => .error (.token t2 ("`=`"))
        | .ok (t2, _) => .error (.token t2 ("<variable>"))
      | .Name name =>
        match lexNext st1 with
        | .error e => .error e
        | .ok (t2, st2) =>
          match statementCode t2 name st2 with
          | .error e => .error e
          | .ok (code, st3) =>
            parseLoop fuel { st3 with bytecodes := st3.bytecodes ++ [code] }
      | .Eof => .ok st1
      | .Comment => parseLoop fuel st1
      | t2 => .error (.token t2 (""))

/-- Mirrors ParseProto::parse from a fresh ParseProto::new state. -/
def parse (src : List Char) : Except ParseError ParseProto :=
  parseLoop (src.length + 1) ⟨[], [], [], src⟩

/-! Virtual machine, mirroring src/vm.rs. -/

/-- Modelled from the spec: `Value::as_str` is called by the VM on pooled
constants but its definition is not under src/. Per the spec, a global
access instruction carries a constant-pool index of the Identifier that
holds the global's name, and the VM reads that name from it; an unwrap
on any other variant panics. -/
def as_str : Value → Option String
  | .Identifier s => some s
  | _ => none

/-- VM state, mirroring struct ExeState: global table, register stack and
the current call base register. The HashMap of globals is modelled as an
association list with overwrite-on-insert (last write wins). -/
structure ExeState where
  globals : List (String × Value)
  stack : List Value
  func_index : Nat
deriving DecidableEq, Repr

/-- Runtime failures: the call-on-non-function error (carrying the
offending value, which the real message renders), the failure of the
write-past-top assertion in set_stack, and any other panic (slice
indexing out of bounds or an unwrap on a non-Identifier constant). -/
inductive RunError where
  | notAFunction (v : Value)
  | assertFail
  | panicked
deriving DecidableEq, Repr

/-- Global table lookup (HashMap::get). -/
def gGet (k : String) (g : List (String × Value)) : Option Value :=
  (g.find? (fun p => p.1 == k)).map (fun p => p.2)

/-- Global table upsert (HashMap::insert, last write wins). -/
def gInsert (k : String) (v : Value) : List (String × Value) → List (String × Value)
  | [] => [(k, v)]
  | p :: rest => if p.1 = k then (k, v) :: rest else p :: gInsert k v rest

/-- Mirrors ExeState::set_stack: overwrite an occupied slot, push onto
the next free slot, and fail the assertion on any write past the top. -/
def set_stack (dst : Nat) (v : Value) (stack : List Value) :
    Except RunError (List Value) :=
  if dst < stack.length then .ok (stack.set dst v)
  else if dst = stack.length then .ok (stack ++ [v])
  else .error .assertFail

/-- The initial state of ExeState::new: the global table pre-seeded with
the print builtin, an empty stack, call base zero. -/
def initState : ExeState :=
  ⟨[("print", .Function)], [], 0⟩

/-- One instruction of ExeState::execute. Its result pairs the print
output produced so far with either the next state or a runtime error.
The only host callable is lib_print, which prints the Debug rendering of
the value at the register after the call base. -/
def step (consts : List Value) (st : ExeState) (out : List Value) :
    ByteCode → List Value × Except RunError ExeState
  | .GetGlobal dst name =>
    match consts.get? name with
    | none => (out, .error .panicked)
    | some kv =>
      match as_str kv with
      | none => (out, .error .panicked)
      | some key =>
        match set_stack dst ((gGet key st.globals).getD .Nil) st.stack with
        | .error e => (out, .error e)
        | .ok s2 => (out, .ok { st with stack := s2 })
  | .Move dst src =>
    match st.stack.get? src with
    | none => (out, .error .panicked)
    | some v =>
      match set_stack dst v st.stack with
      | .error e => (out, .error e)
      | .ok s2 => (out, .ok { st with stack := s2 })
  | .LoadNil dst =>
    match set_stack dst .Nil st.stack with
    | .error e => (out, .error e)
    | .ok s2 => (out, .ok { st with stack := s2 })
  | .LoadBool dst b =>
    match set_stack dst (.Boolean b) st.stack with
    | .error e => (out, .error e)
    | .ok s2 => (out, .ok { st with stack := s2 })
  | .LoadInt dst i =>
    match set_stack dst (.Integer i) st.stack with
    | .error e => (out, .error e)
    | .ok s2 => (out, .ok { st with stack := s2 })
  | .LoadConst dst c =>
    match consts.get? c with
    | none => (out, .error .panicked)
    | some v =>
      match set_stack dst v st.stack with
      | .error e => (out, .error e)
      | .ok s2 => (out, .ok { st with stack := s2 })
  | .Call func _ =>
    let st1 := { st with func_index := func }
    match st1.stack.get? func with
    | none => (out, .error .panicked)
    | some .Function =>
      match st1.stack.get? (func + 1) with
      | none => (out, .error .panicked)
      | some arg => (out ++ [arg], .ok st1)
    | some v => (out, .error (.notAFunction v))
  | .SetGlobalConst gi ki =>
    match (consts.get? gi).bind as_str with
    | none => (out, .error .panicked)
    | some key =>
      match consts.get? ki with
      | none => (out, .error .panicked)
      | some v => (out, .ok { st with globals := gInsert key v st.globals })
  | .SetGlobalLocal gi src =>
    match (consts.get? gi).bind as_str with
    | none => (out, .error .panicked)
    | some key =>
      match st.stack.get? src with
      | none => (out, .error .panicked)
      | some v => (out, .ok { st with globals := gInsert key v st.globals })
  | .SetGlobalGlobal lhsi rhsi =>
    match (consts.get? rhsi).bind as_str with
    | none => (out, .error .panicked)
    | some rkey =>
      let rhs := (gGet rkey st.globals).getD .Nil
      match (consts.get? lhsi).bind as_str with
      | none => (out, .error .panicked)
      | some key => (out, .ok { st with globals := gInsert key rhs st.globals })

/-- Straight-line execution of an instruction list, mirroring the loop of
ExeState::execute: strictly in order, stopping at the first error, while
output already produced is kept (side effects are not rolled back). -/
def execList (consts : List Value) :
    List ByteCode → ExeState → List Value → List Value × Except RunError ExeState
  | [], st, out => (out, .ok st)
  | c :: rest, st, out =>
    match step consts st out c with
    | (out2, .ok st2) => execList consts rest st2 out2
    | (out2, .error e) => (out2, .error e)

/-- Mirrors ExeState::execute on a compiled chunk from the initial
state. -/
def execute (proto : ParseProto) : List Value × Except RunError ExeState :=
  execList proto.constants proto.bytecodes initState []

/-- Mirrors fn rua in src/lib.rs: compile then execute. -/
def rua (src : List Char) : Except ParseError (List Value × Except RunError ExeState) :=
  (parse src).map execute

/-- Printed values of a successful end-to-end run. -/
def ruaOutput (src : List Char) : Option (List Value) :=
  match rua src with
  | .ok (out, .ok _) => some out
  | _ => none

/-- Debug rendering used by lib_print for the variants whose textual form
is exactly specified: nil, booleans, decimal integers and identifier
text. The f64 and function-pointer renderings are representation
dependent and left unmodelled. -/
def debugRender : Value → Option String
  | .Nil => some ("nil")
  | .Boolean b => some (cond b ("true") ("false"))
  | .Integer i => some (toString i)
  | .Identifier s => some s
  | _ => none

/-! Statement-level grammar of numeric literals, read off the float and
integer grammars of src/lex/mod.rs, used to quantify over all valid
numeric literals. -/

/-- Terminator characters for the tokenization property: whitespace and
common punctuation, none of which can extend a numeric literal. -/
def isTermChar (c : Char) : Bool :=
  c = ' ' || c = '\t' || c = '\r' || c = '\n' || c = ')' || c = ';' || c = ','

/-- Terminated continuation: empty input or a terminator character
first. -/
def IsTerm (rest : List Char) : Prop :=
  rest = [] ∨ ∃ c r, rest = c :: r ∧ isTermChar c = true

/-- The exponent tail grammar of lex_float: e or E, an optional sign,
then at least one digit, together with its signed integer value. -/
inductive ExpPart : List Char → Int → Prop where
  | mk (ec : Char) (sg : List Char) (sgn : Int) (ed : List Char) :
      (ec = 'e' ∨ ec = 'E') →
      (sg = [] ∧ sgn = 1 ∨ sg = ['+'] ∧ sgn = 1 ∨ sg = ['-'] ∧ sgn = -1) →
      ed ≠ [] → (∀ c ∈ ed, isDigitChar c = true) →
      ExpPart (ec :: (sg ++ ed)) (sgn * (digitsToNat ed : Int))

/-- Valid numeric literals of the lexer grammar with their token: plain
digit runs (optionally minus-signed) in signed 64-bit range are Integer
tokens; the three float shapes — leading point, mandatory exponent, and
trailing point — are Float tokens with the numeral's exact rational
value. -/
inductive NumLit : List Char → Token → Prop where
  | intLit (sg : List Char) (neg : Bool) (ds : List Char) :
      (sg = [] ∧ neg = false ∨ sg = ['-'] ∧ neg = true) →
      ds ≠ [] → (∀ c ∈ ds, isDigitChar c = true) →
      -(2 ^ 63) ≤ (if neg then -(digitsToNat ds : Int) else (digitsToNat ds : Int)) →
      (if neg then -(digitsToNat ds : Int) else (digitsToNat ds : Int)) ≤ 2 ^ 63 - 1 →
      NumLit (sg ++ ds)
        (.Integer (if neg then -(digitsToNat ds : Int) else (digitsToNat ds : Int)))
  | floatDot (fp : List Char) :
      fp ≠ [] → (∀ c ∈ fp, isDigitChar c = true) →
      NumLit ('.' :: fp) (.Float (ratVal [] fp 0))
  | floatDotExp (fp es : List Char) (e : Int) :
      fp ≠ [] → (∀ c ∈ fp, isDigitChar c = true) →
      ExpPart es e →
      NumLit ('.' :: (fp ++ es)) (.Float (ratVal [] fp e))
  | floatExp (ip fpart fp es : List Char) (e : Int) :
      ip ≠ [] → (∀ c ∈ ip, isDigitChar c = true) →
      (fpart = [] ∧ fp = [] ∨
        (fpart = '.' :: fp ∧ fp ≠ [] ∧ ∀ c ∈ fp, isDigitChar c = true)) →
      ExpPart es e →
      NumLit (ip ++ (fpart ++ es)) (.Float (ratVal ip fp e))
  | floatPlain (ip fp : List Char) :
      ip ≠ [] → (∀ c ∈ ip, isDigitChar c = true) →
      (∀ c ∈ fp, isDigitChar c = true) →
      NumLit (ip ++ '.' :: fp) (.Float (ratVal ip fp 0))

/-! Shape predicates for compiled bytecode, used to state the register
discipline that ParseProto::parse guarantees to ExeState::execute. -/

/-- Instructions that write exactly the stack register d (the load family
emitted by load_exp, load_var and load_const). -/
inductive IsLoad (d : Nat) : ByteCode → Prop where
  | nil : IsLoad d (.LoadNil d)
  | bool (b : Bool) : IsLoad d (.LoadBool d b)
  | int (i : Int) : IsLoad d (.LoadInt d i)
  | cst (k : Nat) : IsLoad d (.LoadConst d k)
  | mov (s : Nat) : IsLoad d (.Move d s)
  | glob (k : Nat) : IsLoad d (.GetGlobal d k)

/-- Instructions that write no stack register (the set-global family
emitted by assign for global targets). -/
inductive IsSetGlobal : ByteCode → Prop where
  | cst (gi ki : Nat) : IsSetGlobal (.SetGlobalConst gi ki)
  | loc (gi s : Nat) : IsSetGlobal (.SetGlobalLocal gi s)
  | glob (gi ki : Nat) : IsSetGlobal (.SetGlobalGlobal gi ki)

/-- Register discipline of a compiled instruction sequence, indexed by
the number of declared locals: a statement either loads into the next
free register and declares a local, loads into an existing local
register, writes only the global table, or is a three-instruction call
group loading callee and argument into the next two registers. All
register numbers are the u8-truncated values the compiler emits. -/
inductive ChunkOk : Nat → List ByteCode → Prop where
  | nil (n : Nat) : ChunkOk n []
  | localDecl (n : Nat) (c : ByteCode) (rest : List ByteCode) :
      IsLoad (n % 256) c → ChunkOk (n + 1) rest → ChunkOk n (c :: rest)
  | assignLocal (n s : Nat) (c : ByteCode) (rest : List ByteCode) :
      s < n → IsLoad (s % 256) c → ChunkOk n rest → ChunkOk n (c :: rest)
  | assignGlobal (n : Nat) (c : ByteCode) (rest : List ByteCode) :
      IsSetGlobal c → ChunkOk n rest → ChunkOk n (c :: rest)
  | call (n m : Nat) (c1 c2 : ByteCode) (rest : List ByteCode) :
      IsLoad (n % 256) c1 → IsLoad ((n % 256 + 1) % 256) c2 →
      ChunkOk n rest →
      ChunkOk n (c1 :: c2 :: .Call (n % 256) m :: rest)

/-! Helper lemmas. -/

/-- Lookup failure of the rightmost scan is exactly absence. -/
theorem rposition_eq_none_iff (name : String) :
    ∀ l : List String, rposition name l = none ↔ name ∉ l := by
  intro l
  induction l with
  | nil => simp [rposition]
  | cons x xs ih =>
    simp only [rposition]
    cases h : rposition name xs with
    | some k =>
      have hmem : name ∈ xs := by
        by_contra hn
        rw [(ih).mpr hn] at h
        exact Option.noConfusion h
      simp [List.mem_cons, hmem]
    | none =>
      have hn : name ∉ xs := (ih).mp h
      by_cases hx : x = name
      · simp [hx]
      · rw [if_neg hx]
        simp only [List.mem_cons]
        constructor
        · intro _
          rintro (hh | hh)
          · exact hx hh.symm
          · exact hn hh
        · intro _
          trivial

/-- The rightmost scan returns an index holding the name with no
later occurrence: most-recently-declared wins. -/
theorem rposition_some_iff (name : String) :
    ∀ (l : List String) (i : Nat),
      rposition name l = some i ↔
        (l.get? i = some name ∧ ∀ j, i < j → l.get? j ≠ some name) := by
  intro l
  induction l with
  | nil => intro i; simp [rposition]
  | cons x xs ih =>
    intro i
    simp only [rposition]
    cases h : rposition name xs with
    | some k =>
      have hk := (ih k).mp h
      constructor
      · intro he
        have hik : i = k + 1 := by
          have := Option.some.inj he
          omega
        subst hik
        refine ⟨by simpa using hk.1, ?_⟩
        intro j hj
        match j, hj with
        | j + 1, hj =>
          simpa using hk.2 j (by omega)
      · rintro ⟨h1, h2⟩
        have hik : i = k + 1 := by
          rcases Nat.lt_trichotomy i (k + 1) with hlt | heq | hgt
          · exfalso
            exact h2 (k + 1) hlt (by simpa using hk.1)
          · exact heq
          · exfalso
            match i, hgt with
            | i + 1, hgt =>
              exact hk.2 i (by omega) (by simpa using h1)
        subst hik
        rfl
    | none =>
      have hn : name ∉ xs := (rposition_eq_none_iff name xs).mp h
      have hxs : ∀ j : Nat, xs.get? j ≠ some name := by
        intro j hj
        exact hn (List.get?_mem hj)
      by_cases hx : x = name
      · subst hx
        simp only [if_pos rfl]
        constructor
        · intro he
          have : i = 0 := (Option.some.inj he).symm
          subst this
          refine ⟨by simp, ?_⟩
          intro j hj
          match j, hj with
          | j + 1, _ => simpa using hxs j
        · rintro ⟨h1, _⟩
          match i, h1 with
          | 0, _ => rfl
          | i + 1, h1 => exact absurd (by simpa using h1) (hxs i)
      · simp only [if_neg hx]
        constructor
        · intro he; exact Option.noConfusion he
        · rintro ⟨h1, _⟩
          match i, h1 with
          | 0, h1 => exact absurd (Option.some.inj h1) (fun hh => hx hh)
          | i + 1, h1 => exact absurd (by simpa using h1) (hxs i)

/-- The linear scan of the constant pool returns the first structurally
equal entry. -/
theorem position_some_iff (v : Value) :
    ∀ (l : List Value) (i : Nat),
      position v l = some i ↔
        (l.get? i = some v ∧ ∀ j, j < i → l.get? j ≠ some v) := by
  intro l
  induction l with
  | nil => intro i; simp [position]
  | cons x xs ih =>
    intro i
    simp only [position]
    by_cases hx : x = v
    · subst hx
      simp only [if_pos rfl]
      constructor
      · intro he
        have : i = 0 := (Option.some.inj he).symm
        subst this
        exact ⟨by simp, by omega⟩
      · rintro ⟨h1, h2⟩
        match i with
        | 0 => rfl
        | i + 1 => exact absurd (by simp) (h2 0 (by omega))
    · simp only [if_neg hx]
      constructor
      · intro he
        match hr : position v xs with
        | none => rw [hr] at he; exact Option.noConfusion he
        | some k =>
          rw [hr] at he
          have hik : i = k + 1 := by
            have : k + 1 = i := by simpa using he
            omega
          subst hik
          have hk := (ih k).mp hr
          refine ⟨by simpa using hk.1, ?_⟩
          intro j hj
          match j with
          | 0 => simpa using fun hh => hx hh
          | j + 1 => simpa using hk.2 j (by omega)
      · rintro ⟨h1, h2⟩
        match i, h1 with
        | 0, h1 => exact absurd (Option.some.inj h1) hx
        | i + 1, h1 =>
          have hr : position v xs = some i := by
            refine (ih i).mpr ⟨by simpa using h1, ?_⟩
            intro j hj
            have := h2 (j + 1) (by omega)
            simpa using this
          rw [hr]
          rfl

/-- Absence from the pool makes the scan fail, so add_const appends. -/
theorem position_eq_none_iff (v : Value) :
    ∀ l : List Value, position v l = none ↔ v ∉ l := by
  intro l
  induction l with
  | nil => simp [position]
  | cons x xs ih =>
    simp only [position]
    by_cases hx : x = v
    · simp [hx]
    · cases h : position v xs with
      | some k =>
        have : v ∈ xs := by
          by_contra hn
          rw [ih.mpr hn] at h
          exact Option.noConfusion h
        simp [if_neg hx, h, List.mem_cons, this]
      | none =>
        have hn : v ∉ xs := ih.mp h
        simp only [if_neg hx, Option.map_none', List.mem_cons]
        constructor
        · intro _
          rintro (hh | hh)
          · exact hx hh.symm
          · exact hn hh
        · intro _
          trivial

/-! Compiler structure lemmas: what each helper of ParseProto::parse
does to the state and what shape of instruction it emits. -/

/-- One lexer call changes only the source cursor. -/
theorem lexNext_spec (st : ParseProto) (t : Token) (st2 : ParseProto)
    (h : lexNext st = .ok (t, st2)) :
    st2.constants = st.constants ∧ st2.bytecodes = st.bytecodes ∧
      st2.locals = st.locals := by
  unfold lexNext at h
  cases hl : lex st.source with
  | some p =>
    obtain ⟨rest, t0⟩ := p
    rw [hl] at h
    cases h
    exact ⟨rfl, rfl, rfl⟩
  | none => rw [hl] at h; cases h

/-- add_const changes only the constant pool, and preserves its freedom
from duplicates. -/
theorem add_const_spec (st : ParseProto) (v : Value) (i : Nat) (st2 : ParseProto)
    (h : add_const st v = (i, st2)) :
    st2.bytecodes = st.bytecodes ∧ st2.locals = st.locals ∧
      (st.constants.Nodup → st2.constants.Nodup) := by
  unfold add_const at h
  cases hp : position v st.constants with
  | some j =>
    rw [hp] at h
    cases h
    exact ⟨rfl, rfl, id⟩
  | none =>
    rw [hp] at h
    cases h
    refine ⟨rfl, rfl, fun hn => ?_⟩
    have hv : v ∉ st.constants := (position_eq_none_iff v st.constants).mp hp
    simp [List.nodup_append, hn, hv]

/-- load_const emits a LoadConst at the requested register and touches
only the pool. -/
theorem load_const_spec (dst : Nat) (v : Value) (st : ParseProto)
    (code : ByteCode) (st2 : ParseProto) (h : load_const dst v st = (code, st2)) :
    IsLoad dst code ∧ st2.bytecodes = st.bytecodes ∧ st2.locals = st.locals ∧
      (st.constants.Nodup → st2.constants.Nodup) := by
  unfold load_const at h
  rcases hA : add_const st v with ⟨i, st3⟩
  rw [hA] at h
  cases h
  have hs := add_const_spec st v i _ hA
  exact ⟨.cst _, hs.1, hs.2.1, hs.2.2⟩

/-- load_var emits a load at the requested register and touches only the
pool. -/
theorem load_var_spec (dst : Nat) (name : String) (st : ParseProto)
    (code : ByteCode) (st2 : ParseProto) (h : load_var dst name st = (code, st2)) :
    IsLoad dst code ∧ st2.bytecodes = st.bytecodes ∧ st2.locals = st.locals ∧
      (st.constants.Nodup → st2.constants.Nodup) := by
  unfold load_var at h
  cases hr : rposition name st.locals with
  | some src =>
    rw [hr] at h
    cases h
    exact ⟨.mov _, rfl, rfl, id⟩
  | none =>
    rw [hr] at h
    rcases hA : add_const st (.Identifier name) with ⟨i, st3⟩
    rw [hA] at h
    cases h
    have hs := add_const_spec st _ i _ hA
    exact ⟨.glob _, hs.1, hs.2.1, hs.2.2⟩

/-- load_exp emits a single load at the requested register, touching
only the pool and the lexer cursor. -/
theorem load_exp_spec (dst : Nat) (st : ParseProto) (code : ByteCode)
    (st2 : ParseProto) (h : load_exp dst st = .ok (code, st2)) :
    IsLoad dst code ∧ st2.bytecodes = st.bytecodes ∧ st2.locals = st.locals ∧
      (st.constants.Nodup → st2.constants.Nodup) := by
  unfold load_exp at h
  cases hl : lexNext st with
  | error e => rw [hl] at h; cases h
  | ok p =>
    obtain ⟨t, st1⟩ := p
    rw [hl] at h
    dsimp only [] at h
    have h1 := lexNext_spec st t st1 hl
    cases t
    case Nil =>
      cases h
      exact ⟨.nil, h1.2.1, h1.2.2, fun hn => by rw [h1.1]; exact hn⟩
    case True =>
      cases h
      exact ⟨.bool _, h1.2.1, h1.2.2, fun hn => by rw [h1.1]; exact hn⟩
    case False =>
      cases h
      exact ⟨.bool _, h1.2.1, h1.2.2, fun hn => by rw [h1.1]; exact hn⟩
    case Integer i =>
      dsimp only [] at h
      split at h
      · cases h
        exact ⟨.int _, h1.2.1, h1.2.2, fun hn => by rw [h1.1]; exact hn⟩
      · rcases hL : load_const dst (.Integer i) st1 with ⟨c0, s0⟩
        rw [hL] at h
        cases h
        have hs := load_const_spec dst _ st1 _ _ hL
        exact ⟨hs.1, by rw [hs.2.1, h1.2.1], by rw [hs.2.2.1, h1.2.2],
          fun hn => hs.2.2.2 (by rw [h1.1]; exact hn)⟩
    case Float f =>
      dsimp only [] at h
      rcases hL : load_const dst (.Float f) st1 with ⟨c0, s0⟩
      rw [hL] at h
      cases h
      have hs := load_const_spec dst _ st1 _ _ hL
      exact ⟨hs.1, by rw [hs.2.1, h1.2.1], by rw [hs.2.2.1, h1.2.2],
        fun hn => hs.2.2.2 (by rw [h1.1]; exact hn)⟩
    case String s =>
      dsimp only [] at h
      rcases hL : load_const dst (.String s) st1 with ⟨c0, s0⟩
      rw [hL] at h
      cases h
      have hs := load_const_spec dst _ st1 _ _ hL
      exact ⟨hs.1, by rw [hs.2.1, h1.2.1], by rw [hs.2.2.1, h1.2.2],
        fun hn => hs.2.2.2 (by rw [h1.1]; exact hn)⟩
    case Name nm =>
      dsimp only [] at h
      rcases hL : load_var dst nm st1 with ⟨c0, s0⟩
      rw [hL] at h
      cases h
      have hs := load_var_spec dst nm st1 _ _ hL
      exact ⟨hs.1, by rw [hs.2.1, h1.2.1], by rw [hs.2.2.1, h1.2.2],
        fun hn => hs.2.2.2 (by rw [h1.1]; exact hn)⟩
    all_goals simp at h

/-- assign emits either a load into an existing local register or a
set-global instruction, touching only the pool and the lexer cursor. -/
theorem assign_spec (var : String) (st : ParseProto) (code : ByteCode)
    (st2 : ParseProto) (h : assign var st = .ok (code, st2)) :
    st2.bytecodes = st.bytecodes ∧ st2.locals = st.locals ∧
      (st.constants.Nodup → st2.constants.Nodup) ∧
      ((∃ s, s < st.locals.length ∧ IsLoad (s % 256) code) ∨ IsSetGlobal code) := by
  unfold assign at h
  cases hr : rposition var st.locals with
  | some src =>
    rw [hr] at h
    have hs := load_exp_spec (src % 256) st code st2 h
    have hlt : src < st.locals.length := by
      have hmem := (rposition_some_iff var st.locals src).mp hr
      rcases List.get?_eq_some.mp hmem.1 with ⟨hl, _⟩
      exact hl
    exact ⟨hs.2.1, hs.2.2.1, hs.2.2.2, .inl ⟨src, hlt, hs.1⟩⟩
  | none =>
    rw [hr] at h
    rcases hA : add_const st (.Identifier var) with ⟨gi0, st1⟩
    rw [hA] at h
    dsimp only [] at h
    have hA' := add_const_spec st _ gi0 st1 hA
    cases hl : lexNext st1 with
    | error e => rw [hl] at h; cases h
    | ok p =>
      obtain ⟨t, stB⟩ := p
      rw [hl] at h
      dsimp only [] at h
      have hl' := lexNext_spec st1 t stB hl
      cases t
      case Nil =>
        dsimp only [] at h
        rcases hB : add_const stB .Nil with ⟨k, st3⟩
        rw [hB] at h
        cases h
        have hB' := add_const_spec stB _ k _ hB
        exact ⟨by rw [hB'.1, hl'.2.1, hA'.1], by rw [hB'.2.1, hl'.2.2, hA'.2.1],
               fun hn => hB'.2.2 (by rw [hl'.1]; exact hA'.2.2 hn), .inr (.cst _ _)⟩
      case True =>
        dsimp only [] at h
        rcases hB : add_const stB (.Boolean true) with ⟨k, st3⟩
        rw [hB] at h
        cases h
        have hB' := add_const_spec stB _ k _ hB
        exact ⟨by rw [hB'.1, hl'.2.1, hA'.1], by rw [hB'.2.1, hl'.2.2, hA'.2.1],
               fun hn => hB'.2.2 (by rw [hl'.1]; exact hA'.2.2 hn), .inr (.cst _ _)⟩
      case False =>
        dsimp only [] at h
        rcases hB : add_const stB (.Boolean false) with ⟨k, st3⟩
        rw [hB] at h
        cases h
        have hB' := add_const_spec stB _ k _ hB
        exact ⟨by rw [hB'.1, hl'.2.1, hA'.1], by rw [hB'.2.1, hl'.2.2, hA'.2.1],
               fun hn => hB'.2.2 (by rw [hl'.1]; exact hA'.2.2 hn), .inr (.cst _ _)⟩
      case Integer i =>
        dsimp only [] at h
        rcases hB : add_const stB (.Integer i) with ⟨k, st3⟩
        rw [hB] at h
        cases h
        have hB' := add_const_spec stB _ k _ hB
        exact ⟨by rw [hB'.1, hl'.2.1, hA'.1], by rw [hB'.2.1, hl'.2.2, hA'.2.1],
               fun hn => hB'.2.2 (by rw [hl'.1]; exact hA'.2.2 hn), .inr (.cst _ _)⟩
      case Float f =>
        dsimp only [] at h
        rcases hB : add_const stB (.Float f) with ⟨k, st3⟩
        rw [hB] at h
        cases h
        have hB' := add_const_spec stB _ k _ hB
        exact ⟨by rw [hB'.1, hl'.2.1, hA'.1], by rw [hB'.2.1, hl'.2.2, hA'.2.1],
               fun hn => hB'.2.2 (by rw [hl'.1]; exact hA'.2.2 hn), .inr (.cst _ _)⟩
      case String s =>
        dsimp only [] at h
        rcases hB : add_const stB (.String s) with ⟨k, st3⟩
        rw [hB] at h
        cases h
        have hB' := add_const_spec stB _ k _ hB
        exact ⟨by rw [hB'.1, hl'.2.1, hA'.1], by rw [hB'.2.1, hl'.2.2, hA'.2.1],
               fun hn => hB'.2.2 (by rw [hl'.1]; exact hA'.2.2 hn), .inr (.cst _ _)⟩
      case Name var2 =>
        dsimp only [] at h
        cases hr2 : rposition var2 stB.locals with
        | some src2 =>
          rw [hr2] at h
          cases h
          exact ⟨by rw [hl'.2.1, hA'.1], by rw [hl'.2.2, hA'.2.1],
                 fun hn => by rw [hl'.1]; exact hA'.2.2 hn, .inr (.loc _ _)⟩
        | none =>
          rw [hr2] at h
          rcases hB : add_const stB (.Identifier var2) with ⟨k, st3⟩
          rw [hB] at h
          cases h
          have hB' := add_const_spec stB _ k _ hB
          exact ⟨by rw [hB'.1, hl'.2.1, hA'.1], by rw [hB'.2.1, hl'.2.2, hA'.2.1],
                 fun hn => hB'.2.2 (by rw [hl'.1]; exact hA'.2.2 hn), .inr (.glob _ _)⟩
      all_goals simp at h

/-- call_function pushes callee and argument loads for the next two free
registers and returns the Call instruction for the main loop to push. -/
theorem call_function_spec (t : Token) (name : String) (st : ParseProto)
    (code : ByteCode) (st2 : ParseProto)
    (h : call_function t name st = .ok (code, st2)) :
    st2.locals = st.locals ∧
      (st.constants.Nodup → st2.constants.Nodup) ∧
      ∃ c1 c2, st2.bytecodes = st.bytecodes ++ [c1, c2] ∧
        IsLoad (st.locals.length % 256) c1 ∧
        IsLoad ((st.locals.length % 256 + 1) % 256) c2 ∧
        code = .Call (st.locals.length % 256) 1 := by
  unfold call_function at h
  dsimp only [] at h
  rcases hV : load_var (st.locals.length % 256) name st with ⟨c1, stA⟩
  rw [hV] at h
  dsimp only [] at h
  have hV' := load_var_spec _ name st c1 stA hV
  cases t
  case ParL =>
    cases hE : load_exp ((st.locals.length % 256 + 1) % 256)
        { stA with bytecodes := stA.bytecodes ++ [c1] } with
    | error e => rw [hE] at h; cases h
    | ok q =>
      obtain ⟨c2, stC⟩ := q
      rw [hE] at h
      dsimp only [] at h
      have hE' := load_exp_spec _ _ c2 stC hE
      cases hl : lexNext { stC with bytecodes := stC.bytecodes ++ [c2] } with
      | error e => rw [hl] at h; cases h
      | ok p =>
        obtain ⟨t2, stD⟩ := p
        rw [hl] at h
        have hl' := lexNext_spec _ t2 stD hl
        cases t2
        case ParR =>
          cases h
          refine ⟨?_, ?_, c1, c2, ?_, hV'.1, hE'.1, rfl⟩
          · rw [hl'.2.2]
            show stC.locals = st.locals
            rw [hE'.2.2.1]
            exact hV'.2.2.1
          · intro hn
            rw [hl'.1]
            exact hE'.2.2.2 (hV'.2.2.2 hn)
          · rw [hl'.2.1]
            show stC.bytecodes ++ [c2] = st.bytecodes ++ [c1, c2]
            rw [hE'.2.1]
            show (stA.bytecodes ++ [c1]) ++ [c2] = st.bytecodes ++ [c1, c2]
            rw [hV'.2.1]
            simp
        all_goals simp at h
  case String s =>
    dsimp only [] at h
    rcases hL : load_const ((st.locals.length % 256 + 1) % 256) (.String s)
        { stA with bytecodes := stA.bytecodes ++ [c1] } with ⟨c2, stC⟩
    rw [hL] at h
    cases h
    have hL' := load_const_spec _ _ _ _ _ hL
    refine ⟨?_, ?_, c1, c2, ?_, hV'.1, hL'.1, rfl⟩
    · show stC.locals = st.locals
      rw [hL'.2.2.1]
      exact hV'.2.2.1
    · intro hn
      show stC.constants.Nodup
      exact hL'.2.2.2 (hV'.2.2.2 hn)
    · show stC.bytecodes ++ [c2] = st.bytecodes ++ [c1, c2]
      rw [hL'.2.1]
      show (stA.bytecodes ++ [c1]) ++ [c2] = st.bytecodes ++ [c1, c2]
      rw [hV'.2.1]
      simp
  all_goals simp at h

/-- Shape of one statement after a leading Name token: a load into an
existing local, a set-global instruction with unchanged bytecode, or a
call group of two pushed loads and a returned Call. -/
theorem statementCode_spec (t2 : Token) (nm : String) (st : ParseProto)
    (code : ByteCode) (st3 : ParseProto)
    (h : statementCode t2 nm st = .ok (code, st3)) :
    st3.locals = st.locals ∧ (st.constants.Nodup → st3.constants.Nodup) ∧
      ((st3.bytecodes = st.bytecodes ∧
          ((∃ s, s < st.locals.length ∧ IsLoad (s % 256) code) ∨ IsSetGlobal code))
        ∨ (∃ c1 c2, st3.bytecodes = st.bytecodes ++ [c1, c2] ∧
            IsLoad (st.locals.length % 256) c1 ∧
            IsLoad ((st.locals.length % 256 + 1) % 256) c2 ∧
            code = .Call (st.locals.length % 256) 1)) := by
  unfold statementCode at h
  cases t2
  case Assign =>
    have hs := assign_spec nm st code st3 h
    exact ⟨hs.2.1, hs.2.2.1, .inl ⟨hs.1, hs.2.2.2⟩⟩
  all_goals
    have hs := call_function_spec _ nm st code st3 h
  all_goals
    exact ⟨hs.1, hs.2.1, .inr hs.2.2⟩

/-- Main loop invariant of ParseProto::parse: from any state, a
successful parse appends statement groups satisfying the register
discipline at the current number of locals, and preserves a
duplicate-free constant pool. -/
theorem parseLoop_inv :
    ∀ (fuel : Nat) (st : ParseProto) (proto : ParseProto),
      parseLoop fuel st = .ok proto →
      ∃ tail, proto.bytecodes = st.bytecodes ++ tail ∧
        ChunkOk st.locals.length tail ∧
        (st.constants.Nodup → proto.constants.Nodup) := by
  intro fuel
  induction fuel with
  | zero => intro st proto h; cases h
  | succ f ih =>
    intro st proto h
    unfold parseLoop at h
    cases hl : lexNext st with
    | error e => rw [hl] at h; cases h
    | ok p =>
      obtain ⟨t, st1⟩ := p
      rw [hl] at h
      dsimp only [] at h
      have hlx := lexNext_spec st t st1 hl
      cases t
      case Eof =>
        cases h
        exact ⟨[], by simp [hlx.2.1], ChunkOk.nil _,
          fun hn => by rw [hlx.1]; exact hn⟩
      case Comment =>
        obtain ⟨tail, hb, hc, hn⟩ := ih st1 proto h
        refine ⟨tail, ?_, ?_, ?_⟩
        · rw [hb, hlx.2.1]
        · rw [hlx.2.2] at hc; exact hc
        · intro hn2; exact hn (by rw [hlx.1]; exact hn2)
      case Local =>
        dsimp only [] at h
        cases hl2 : lexNext st1 with
        | error e => rw [hl2] at h; cases h
        | ok p2 =>
          obtain ⟨t2, st2⟩ := p2
          rw [hl2] at h
          have h2x := lexNext_spec st1 t2 st2 hl2
          cases t2
          case Name var =>
            dsimp only [] at h
            cases hl3 : lexNext st2 with
            | error e => rw [hl3] at h; cases h
            | ok p3 =>
              obtain ⟨t3, st3⟩ := p3
              rw [hl3] at h
              have h3x := lexNext_spec st2 t3 st3 hl3
              cases t3
              case Assign =>
                dsimp only [] at h
                cases hle : load_exp (st3.locals.length % 256) st3 with
                | error e => rw [hle] at h; cases h
                | ok q =>
                  obtain ⟨code, st4⟩ := q
                  rw [hle] at h
                  dsimp only [] at h
                  have hle' := load_exp_spec _ st3 code st4 hle
                  obtain ⟨tail, hb, hc, hn⟩ := ih _ proto h
                  have hLoc3 : st3.locals = st.locals := by
                    rw [h3x.2.2, h2x.2.2, hlx.2.2]
                  have hLoc4 : st4.locals = st.locals := by
                    rw [hle'.2.2.1, hLoc3]
                  have hBy4 : st4.bytecodes = st.bytecodes := by
                    rw [hle'.2.1, h3x.2.1, h2x.2.1, hlx.2.1]
                  refine ⟨code :: tail, ?_, ?_, ?_⟩
                  · rw [hb]
                    show (st4.bytecodes ++ [code]) ++ tail
                      = st.bytecodes ++ (code :: tail)
                    rw [hBy4]
                    simp
                  · apply ChunkOk.localDecl
                    · rw [← hLoc3]
                      exact hle'.1
                    · have hlen : (st4.locals ++ [var]).length
                          = st.locals.length + 1 := by simp [hLoc4]
                      have hc2 : ChunkOk (st4.locals ++ [var]).length tail := hc
                      rw [hlen] at hc2
                      exact hc2
                  · intro hn2
                    apply hn
                    show st4.constants.Nodup
                    apply hle'.2.2.2
                    rw [h3x.1, h2x.1, hlx.1]
                    exact hn2
              all_goals simp at h
          all_goals simp at h
      case Name nm =>
        dsimp only [] at h
        cases hl2 : lexNext st1 with
        | error e => rw [hl2] at h; cases h
        | ok p2 =>
          obtain ⟨t2, st2⟩ := p2
          rw [hl2] at h
          dsimp only [] at h
          have h2x := lexNext_spec st1 t2 st2 hl2
          cases hd : statementCode t2 nm st2 with
          | error e => rw [hd] at h; cases h
          | ok q =>
            obtain ⟨code, st3⟩ := q
            rw [hd] at h
            dsimp only [] at h
            have hs := statementCode_spec t2 nm st2 code st3 hd
            obtain ⟨tail, hb, hc, hn⟩ := ih _ proto h
            have hLoc : st3.locals = st.locals := by
              rw [hs.1, h2x.2.2, hlx.2.2]
            have hc2 : ChunkOk st3.locals.length tail := hc
            rw [hLoc] at hc2
            have hNod : st.constants.Nodup → proto.constants.Nodup := by
              intro hn2
              apply hn
              show st3.constants.Nodup
              apply hs.2.1
              rw [h2x.1, hlx.1]
              exact hn2
            rcases hs.2.2 with ⟨hbEq, hshape⟩ | ⟨c1, c2, hbEq, hc1, hc2b, hcode⟩
            · refine ⟨code :: tail, ?_, ?_, hNod⟩
              · rw [hb]
                show (st3.bytecodes ++ [code]) ++ tail
                  = st.bytecodes ++ (code :: tail)
                rw [hbEq, h2x.2.1, hlx.2.1]
                simp
              · rcases hshape with ⟨s, hslt, hsload⟩ | hsg
                · have hslt2 : s < st.locals.length := by
                    rw [← hlx.2.2, ← h2x.2.2]
                    exact hslt
                  exact ChunkOk.assignLocal _ s _ _ hslt2 hsload hc2
                · exact ChunkOk.assignGlobal _ _ _ hsg hc2
            · have hEq : st2.locals.length = st.locals.length := by
                rw [h2x.2.2, hlx.2.2]
              rw [hEq] at hc1 hc2b hcode
              subst hcode
              refine ⟨c1 :: c2 :: .Call (st.locals.length % 256) 1 :: tail,
                ?_, ?_, hNod⟩
              · rw [hb]
                show (st3.bytecodes ++ [.Call (st.locals.length % 256) 1]) ++ tail
                  = st.bytecodes ++ (c1 :: c2 :: .Call (st.locals.length % 256) 1 :: tail)
                rw [hbEq]
                rw [hEq] at *
                rw [h2x.2.1, hlx.2.1]
                simp
              · exact ChunkOk.call _ 1 _ _ _ hc1 hc2b hc2
      all_goals simp at h

/-! VM lemmas: a write at or below the stack top always succeeds and
grows the stack to cover the written register; each instruction class
either panics, fails the call check, or preserves the length bound. -/

/-- set_stack succeeds exactly on writes at or below the current top. -/
theorem set_stack_le (dst : Nat) (v : Value) (s : List Value)
    (h : dst ≤ s.length) :
    ∃ s2, set_stack dst v s = .ok s2 ∧ s2.length = max s.length (dst + 1) := by
  rcases Nat.lt_or_ge dst s.length with hlt | hge
  · refine ⟨s.set dst v, by rw [set_stack, if_pos hlt], ?_⟩
    simp
    omega
  · have heq : dst = s.length := Nat.le_antisymm h hge
    refine ⟨s ++ [v], by rw [set_stack, if_neg (by omega), if_pos heq], ?_⟩
    simp
    omega

/-- Executing a load-class instruction with its target at or below the
stack top either panics or succeeds with the stack covering the target. -/
theorem step_load (consts : List Value) (st : ExeState) (out : List Value)
    (d : Nat) (c : ByteCode) (hc : IsLoad d c) (hd : d ≤ st.stack.length) :
    step consts st out c = (out, .error .panicked) ∨
    ∃ st2, step consts st out c = (out, .ok st2) ∧
      st2.stack.length = max st.stack.length (d + 1) := by
  cases hc with
  | nil =>
    obtain ⟨s2, hs2, hlen⟩ := set_stack_le d .Nil st.stack hd
    exact .inr ⟨{ st with stack := s2 }, by simp only [step, hs2], hlen⟩
  | bool b =>
    obtain ⟨s2, hs2, hlen⟩ := set_stack_le d (.Boolean b) st.stack hd
    exact .inr ⟨{ st with stack := s2 }, by simp only [step, hs2], hlen⟩
  | int i =>
    obtain ⟨s2, hs2, hlen⟩ := set_stack_le d (.Integer i) st.stack hd
    exact .inr ⟨{ st with stack := s2 }, by simp only [step, hs2], hlen⟩
  | cst k =>
    cases hk : consts.get? k with
    | none => exact .inl (by simp only [step, hk])
    | some v =>
      obtain ⟨s2, hs2, hlen⟩ := set_stack_le d v st.stack hd
      exact .inr ⟨{ st with stack := s2 }, by simp only [step, hk, hs2], hlen⟩
  | mov s =>
    cases hk : st.stack.get? s with
    | none => exact .inl (by simp only [step, hk])
    | some v =>
      obtain ⟨s2, hs2, hlen⟩ := set_stack_le d v st.stack hd
      exact .inr ⟨{ st with stack := s2 }, by simp only [step, hk, hs2], hlen⟩
  | glob k =>
    cases hk : consts.get? k with
    | none => exact .inl (by simp only [step, hk])
    | some kv =>
      cases hA : as_str kv with
      | none => exact .inl (by simp only [step, hk, hA])
      | some key =>
        obtain ⟨s2, hs2, hlen⟩ :=
          set_stack_le d ((gGet key st.globals).getD .Nil) st.stack hd
        exact .inr ⟨{ st with stack := s2 },
          by simp only [step, hk, hA, hs2], hlen⟩

/-- Executing a set-global instruction either panics or succeeds with
the stack unchanged. -/
theorem step_setglobal (consts : List Value) (st : ExeState)
    (out : List Value) (c : ByteCode) (hc : IsSetGlobal c) :
    step consts st out c = (out, .error .panicked) ∨
    ∃ st2, step consts st out c = (out, .ok st2) ∧ st2.stack = st.stack := by
  cases hc with
  | cst gi ki =>
    cases hk : (consts.get? gi).bind as_str with
    | none => exact .inl (by simp only [step, hk])
    | some key =>
      cases hv : consts.get? ki with
      | none => exact .inl (by simp only [step, hk, hv])
      | some v =>
        exact .inr ⟨{ st with globals := gInsert key v st.globals },
          by simp only [step, hk, hv], rfl⟩
  | loc gi s =>
    cases hk : (consts.get? gi).bind as_str with
    | none => exact .inl (by simp only [step, hk])
    | some key =>
      cases hv : st.stack.get? s with
      | none => exact .inl (by simp only [step, hk, hv])
      | some v =>
        exact .inr ⟨{ st with globals := gInsert key v st.globals },
          by simp only [step, hk, hv], rfl⟩
  | glob gi ki =>
    cases hk : (consts.get? ki).bind as_str with
    | none => exact .inl (by simp only [step, hk])
    | some rkey =>
      cases hv : (consts.get? gi).bind as_str with
      | none => exact .inl (by simp only [step, hk, hv])
      | some key =>
        refine .inr ⟨{ st with globals := gInsert key ((gGet rkey st.globals).getD Value.Nil) st.globals }, ?_, rfl⟩
        simp only [step, hk, hv]

/-- Executing a Call either fails with a non-assert error or succeeds
with the stack unchanged. -/
theorem step_call (consts : List Value) (st : ExeState) (out : List Value)
    (func m : Nat) :
    (∃ e, e ≠ RunError.assertFail ∧
      step consts st out (.Call func m) = (out, .error e)) ∨
    ∃ st2 out2, step consts st out (.Call func m) = (out2, .ok st2) ∧
      st2.stack = st.stack := by
  cases hv : st.stack.get? func with
  | none =>
    exact .inl ⟨.panicked, by decide, by simp only [step, hv]⟩
  | some v =>
    cases v with
    | Function =>
      cases ha : st.stack.get? (func + 1) with
      | none => exact .inl ⟨.panicked, by decide, by simp only [step, hv, ha]⟩
      | some arg =>
        exact .inr ⟨{ st with func_index := func }, out ++ [arg],
          by simp only [step, hv, ha], rfl⟩
    | Nil => exact .inl ⟨.notAFunction .Nil, by decide, by simp only [step, hv]⟩
    | Boolean b =>
      exact .inl ⟨.notAFunction (.Boolean b), by simp, by simp only [step, hv]⟩
    | Integer i =>
      exact .inl ⟨.notAFunction (.Integer i), by simp, by simp only [step, hv]⟩
    | Float q =>
      exact .inl ⟨.notAFunction (.Float q), by simp, by simp only [step, hv]⟩
    | String bs =>
      exact .inl ⟨.notAFunction (.String bs), by simp, by simp only [step, hv]⟩
    | Identifier s =>
      exact .inl ⟨.notAFunction (.Identifier s), by simp, by simp only [step, hv]⟩

/-- Arithmetic core of the register discipline: the truncated write
target of the next instruction group stays at or below a stack top that
covers min n 256 registers. -/
theorem mod_le_of_min_le (n L : Nat) (h : min n 256 ≤ L) : n % 256 ≤ L := by
  rcases Nat.lt_or_ge n 256 with h1 | h1
  · rw [Nat.mod_eq_of_lt h1]
    rw [Nat.min_eq_left (Nat.le_of_lt h1)] at h
    exact h
  · rw [Nat.min_eq_right h1] at h
    have := Nat.mod_lt n (show 0 < 256 by decide)
    omega

/-- Straight-line execution of a chunk obeying the register discipline
from a stack covering the declared locals never fails the write-past-top
assertion. -/
theorem execList_no_assert (consts : List Value) :
    ∀ (n : Nat) (codes : List ByteCode), ChunkOk n codes →
    ∀ (st : ExeState) (out : List Value), min n 256 ≤ st.stack.length →
      (execList consts codes st out).2 ≠ .error .assertFail := by
  intro n codes hc
  induction hc with
  | nil n =>
    intro st out _
    simp [execList]
  | localDecl n c rest hload hrest ih =>
    intro st out hlen
    have hd : n % 256 ≤ st.stack.length := mod_le_of_min_le n _ hlen
    rcases step_load consts st out _ c hload hd with herr | ⟨st2, hok, hlen2⟩
    · simp [execList, herr]
    · simp only [execList, hok]
      apply ih
      rw [hlen2]
      rcases Nat.lt_or_ge n 256 with h1 | h1
      · rw [Nat.mod_eq_of_lt h1]
        omega
      · rw [Nat.min_eq_right h1] at hlen
        have : min (n + 1) 256 = 256 := Nat.min_eq_right (by omega)
        omega
  | assignLocal n s c rest hs hload hrest ih =>
    intro st out hlen
    have hd : s % 256 ≤ st.stack.length := by
      have h2 : s % 256 ≤ s := Nat.mod_le s 256
      rcases Nat.lt_or_ge n 256 with h1 | h1
      · rw [Nat.min_eq_left (Nat.le_of_lt h1)] at hlen
        omega
      · rw [Nat.min_eq_right h1] at hlen
        have := Nat.mod_lt s (show 0 < 256 by decide)
        omega
    rcases step_load consts st out _ c hload hd with herr | ⟨st2, hok, hlen2⟩
    · simp [execList, herr]
    · simp only [execList, hok]
      apply ih
      rw [hlen2]
      omega
  | assignGlobal n c rest hsg hrest ih =>
    intro st out hlen
    rcases step_setglobal consts st out c hsg with herr | ⟨st2, hok, hstk⟩
    · simp [execList, herr]
    · simp only [execList, hok]
      apply ih
      rw [hstk]
      exact hlen
  | call n m c1 c2 rest hload1 hload2 hrest ih =>
    intro st out hlen
    have hd1 : n % 256 ≤ st.stack.length := mod_le_of_min_le n _ hlen
    rcases step_load consts st out _ c1 hload1 hd1 with herr | ⟨st2, hok1, hlen1⟩
    · simp [execList, herr]
    · simp only [execList, hok1]
      have hd2 : (n % 256 + 1) % 256 ≤ st2.stack.length := by
        have hmod : n % 256 < 256 := Nat.mod_lt n (show 0 < 256 by decide)
        rcases Nat.lt_or_ge (n % 256 + 1) 256 with h1 | h1
        · rw [Nat.mod_eq_of_lt h1]
          omega
        · have : n % 256 + 1 = 256 := by omega
          rw [this]
          simp
      rcases step_load consts st2 out _ c2 hload2 hd2 with herr | ⟨st3, hok2, hlen3⟩
      · simp [execList, herr]
      · simp only [execList, hok2]
        rcases step_call consts st3 out (n % 256) m with
          ⟨e, hne, herr⟩ | ⟨st4, out2, hok3, hstk⟩
        · simp only [execList, herr]
          intro hcontra
          exact hne (by injection hcontra)
        · simp only [execList, hok3]
          apply ih
          rw [hstk, hlen3]
          omega


/-! Lexer helper lemmas. -/

/-- A block satisfying the predicate followed by input whose head fails
it splits exactly at the boundary under takeWhile and dropWhile. -/
theorem takeWhile_append_eq (p : Char → Bool) :
    ∀ (ds rest : List Char), (∀ c ∈ ds, p c = true) →
      (∀ c, rest.head? = some c → p c = false) →
      (ds ++ rest).takeWhile p = ds ∧ (ds ++ rest).dropWhile p = rest := by
  intro ds
  induction ds with
  | nil =>
    intro rest h1 h2
    constructor
    · cases rest with
      | nil => rfl
      | cons c r => simp [List.takeWhile_cons, h2 c rfl]
    · cases rest with
      | nil => rfl
      | cons c r => simp [List.dropWhile_cons, h2 c rfl]
  | cons d ds ih =>
    intro rest h1 h2
    have hd : p d = true := h1 d (by simp)
    have hih := ih rest (fun c hc => h1 c (by simp [hc])) h2
    constructor
    · simp only [List.cons_append, List.takeWhile_cons, hd, if_true]
      rw [hih.1]
    · simp only [List.cons_append, List.dropWhile_cons, hd, if_true]
      exact hih.2

/-- dropWhile is the identity when the head fails the predicate. -/
theorem dropWhile_head_false (p : Char → Bool) (c : Char) (l : List Char)
    (h : p c = false) : (c :: l).dropWhile p = c :: l := by
  simp [List.dropWhile_cons, h]

/-- Two characters on opposite sides of a boolean predicate differ. -/
theorem pred_ne (p : Char → Bool) (c x : Char) (hc : p c = true)
    (hx : p x = false) : c ≠ x := by
  intro he
  rw [he, hx] at hc
  cases hc

/-! Claim theorems. -/

/-- C1: compiling and executing the five-line source of local
declaration, assignment into the existing register, self-assignment and
two reads succeeds and prints the decimal rendering 123 exactly twice. -/
theorem c1_end_to_end_prints_123_twice :
    ruaOutput ("local a = 456\na = 123\nprint(a)\na = a\nprint(a)".toList)
      = some [.Integer 123, .Integer 123] ∧
    [Value.Integer 123, Value.Integer 123].map debugRender
      = [some ("123"), some ("123")] :=
  ⟨rfl, rfl⟩

/-- C6: the lexer does not match the three-dot operator greedily; because
the two-dot tag is tried first in lex_chars, an input beginning with
three dots lexes as Concat followed by Dot, never as the Dots token. -/
theorem c6_dots_never_lexed :
    lex ("...".toList) = some (['.'], .Concat) ∧
    lex (['.']) = some ([], .Dot) ∧
    Token.Concat ≠ Token.Dots :=
  ⟨rfl, rfl, fun h => Token.noConfusion h⟩

/-- C2 counterexample: the claim's program uses semicolon separators, but
a semicolon is not part of the statement grammar, so the program is
rejected with an unexpected-token error instead of compiling. -/
theorem c2_counterexample_semicolon_rejected :
    parse ("local a = 1; local a = 2; print(a)".toList)
      = .error (.token .SemiColon ("")) :=
  rfl

/-- C8 counterexample: in a double-quoted literal, a one-digit hex escape
followed by a non-hex character consumes that character too, so the
claimed decoding (escape byte then the verbatim following byte) is not
produced: the z (byte 122) is swallowed. -/
theorem c8_counterexample_one_digit_hex :
    lex ("\"\\x4z\"".toList) = some ([], .String [4]) ∧
    ([4] : List Nat) ≠ [4, 122] :=
  ⟨rfl, by decide⟩

/-- C9 counterexample: a line comment with an empty body is not lexed as
a Comment token, because the body matcher requires at least one
character; the input of two minus signs and a newline lexes as Sub. -/
theorem c9_counterexample_empty_comment :
    lex ("--\n".toList) = some (['-', '\n'], .Sub) ∧
    Token.Sub ≠ Token.Comment :=
  ⟨rfl, fun h => Token.noConfusion h⟩

/-- C2 (amended): local name lookup scans the locals table from
most-recently-declared to least-recently-declared and returns the first
match, and earlier same-named entries stay in the table at their
registers; with newline statement separators — the semicolons of the
claim's program are not part of the grammar — the two-declaration
program compiles with both entries in the locals table, resolves the
final reference to the second declaration's register 1, and prints 2. -/
theorem c2_local_lookup_rightmost_and_shadowing :
    (∀ (locals : List String) (name : String) (i : Nat),
        rposition name locals = some i ↔
          (locals.get? i = some name ∧ ∀ j, i < j → locals.get? j ≠ some name))
    ∧ (∀ (locals : List String) (name : String),
        rposition name locals = none ↔ name ∉ locals)
    ∧ parse ("local a = 1\nlocal a = 2\nprint(a)".toList)
        = .ok ⟨[.Identifier ("print")],
            [.LoadInt 0 1, .LoadInt 1 2, .GetGlobal 2 0, .Move 3 1, .Call 2 1],
            ["a", "a"], []⟩
    ∧ ruaOutput ("local a = 1\nlocal a = 2\nprint(a)".toList) = some [.Integer 2]
    ∧ debugRender (.Integer 2) = some ("2") :=
  ⟨fun l n i => rposition_some_iff n l i,
   fun l n => rposition_eq_none_iff n l,
   rfl, rfl, rfl⟩

/-- Witness for C2: on the concrete locals table produced by the two
shadowing declarations, the scan resolves to index 1 and no later index
holds the name. -/
theorem c2_witness :
    (["a", "a"] : List String).get? 1 = some ("a") ∧
      ∀ j, 1 < j → (["a", "a"] : List String).get? j ≠ some ("a") :=
  (c2_local_lookup_rightmost_and_shadowing.1 ["a", "a"] ("a") 1).mp rfl

/-- C3: a Get-global instruction whose pooled Identifier names an absent
global writes Nil into the destination register and does not fail, and
the end-to-end print of an undefined name prints nil without error. -/
theorem c3_missing_global_reads_nil :
    (∀ (consts : List Value) (st : ExeState) (out : List Value)
        (dst name : Nat) (key : String),
        consts.get? name = some (.Identifier key) →
        gGet key st.globals = none →
        dst ≤ st.stack.length →
        ∃ s2, set_stack dst Value.Nil st.stack = .ok s2 ∧
          step consts st out (.GetGlobal dst name)
            = (out, .ok { st with stack := s2 }))
    ∧ ruaOutput ("print(undefined_name)".toList) = some [.Nil]
    ∧ debugRender .Nil = some ("nil") := by
  refine ⟨?_, rfl, rfl⟩
  intro consts st out dst name key h1 h2 h3
  have hss : ∃ s2, set_stack dst Value.Nil st.stack = .ok s2 := by
    rcases Nat.lt_or_ge dst st.stack.length with hlt | hge
    · exact ⟨st.stack.set dst Value.Nil, by rw [set_stack, if_pos hlt]⟩
    · have heq : dst = st.stack.length := Nat.le_antisymm h3 hge
      exact ⟨st.stack ++ [Value.Nil],
        by rw [set_stack, if_neg (by omega), if_pos heq]⟩
  rcases hss with ⟨s2, hs2⟩
  refine ⟨s2, hs2, ?_⟩
  simp only [step, h1, as_str, h2, Option.getD_none, hs2]

/-- Witness for C3: reading the absent global g from the initial state
through a pooled Identifier constant writes Nil at register 0. -/
theorem c3_witness :
    ∃ s2, set_stack 0 Value.Nil initState.stack = .ok s2 ∧
      step [.Identifier ("g")] initState [] (.GetGlobal 0 0)
        = ([], .ok { initState with stack := s2 }) :=
  c3_missing_global_reads_nil.1 [.Identifier ("g")] initState [] 0 0 ("g")
    rfl rfl (Nat.le_refl 0)

/-- C4: a Call instruction whose callee register holds a value that is
not the host Function value fails immediately with a runtime error
carrying the offending value; the callee never runs (no output is
produced by the call), no later instruction runs, and the whole
execution returns the error. -/
theorem c4_call_non_function_aborts :
    ∀ (consts : List Value) (codes : List ByteCode) (st : ExeState)
      (out : List Value) (func m : Nat) (v : Value),
      st.stack.get? func = some v →
      v ≠ .Function →
      execList consts (.Call func m :: codes) st out
        = (out, .error (.notAFunction v)) := by
  intro consts codes st out func m v hv hnf
  have hstep : step consts st out (.Call func m)
      = (out, .error (.notAFunction v)) := by
    cases v
    case Function => exact absurd rfl hnf
    all_goals simp only [step, hv]
  simp only [execList, hstep]

/-- Witness for C4: calling the non-function Integer 5 sitting in
register 0 aborts with the error naming that value, printing nothing. -/
theorem c4_witness :
    execList [] [.Call 0 1] ⟨[], [.Integer 5], 0⟩ []
      = ([], .error (.notAFunction (.Integer 5))) :=
  c4_call_non_function_aborts [] [] ⟨[], [.Integer 5], 0⟩ [] 0 1 (.Integer 5)
    rfl (by decide)

/-- C5: the constant pool is deduplicated by structural equality with
first-seen order preserved — adding a value structurally equal to an
existing entry returns the first matching index without appending,
otherwise the value is appended at the end; every compiled chunk has a
duplicate-free pool, and compiling two identical string literals
anywhere in one chunk produces exactly one pool entry referenced by
both occurrences. -/
theorem c5_constant_pool_dedup :
    (∀ (st : ParseProto) (v : Value) (i : Nat),
        position v st.constants = some i → add_const st v = (i, st))
    ∧ (∀ (st : ParseProto) (v : Value),
        position v st.constants = none →
        add_const st v
          = (st.constants.length, { st with constants := st.constants ++ [v] }))
    ∧ (∀ (l : List Value) (v : Value) (i : Nat),
        position v l = some i ↔
          (l.get? i = some v ∧ ∀ j, j < i → l.get? j ≠ some v))
    ∧ (∀ (src : List Char) (proto : ParseProto),
        parse src = .ok proto → proto.constants.Nodup)
    ∧ parse ("print \"x\"\nprint \"x\"".toList)
        = .ok ⟨[.Identifier ("print"), .String [120]],
            [.GetGlobal 0 0, .LoadConst 1 1, .Call 0 1,
             .GetGlobal 0 0, .LoadConst 1 1, .Call 0 1],
            [], []⟩ := by
  refine ⟨?_, ?_, ?_, ?_, rfl⟩
  · intro st v i hp
    unfold add_const
    rw [hp]
  · intro st v hp
    unfold add_const
    rw [hp]
  · intro l v i
    exact position_some_iff v l i
  · intro src proto h
    unfold parse at h
    obtain ⟨tail, hb, hc, hn⟩ := parseLoop_inv _ _ _ h
    exact hn List.nodup_nil

/-- Witness for C5: re-adding the pooled Integer 7 returns index 0 and
leaves the pool unchanged. -/
theorem c5_witness :
    add_const ⟨[.Integer 7], [], [], []⟩ (.Integer 7)
      = (0, ⟨[.Integer 7], [], [], []⟩) :=
  c5_constant_pool_dedup.1 ⟨[.Integer 7], [], [], []⟩ (.Integer 7) 0 rfl

/-- C10: a write strictly past the stack top is exactly what fails the
set_stack assertion, and for every program the compiler produces,
execution from the initial state writes only to occupied slots or the
next unused one, so the assertion can never fail. -/
theorem c10_no_write_past_top :
    (∀ (dst : Nat) (v : Value) (s : List Value),
        set_stack dst v s = .error .assertFail ↔ s.length < dst)
    ∧ (∀ (src : List Char) (proto : ParseProto),
        parse src = .ok proto →
        (execute proto).2 ≠ .error .assertFail) := by
  constructor
  · intro dst v s
    unfold set_stack
    rcases Nat.lt_trichotomy dst s.length with h1 | h1 | h1
    · rw [if_pos h1]
      simp
      omega
    · rw [if_neg (by omega), if_pos h1]
      simp
      omega
    · rw [if_neg (by omega), if_neg (by omega)]
      simp
      omega
  · intro src proto h
    unfold parse at h
    obtain ⟨tail, hb, hchunk, _⟩ := parseLoop_inv _ _ _ h
    have hb2 : proto.bytecodes = tail := by rw [hb]; simp
    unfold execute
    rw [hb2]
    exact execList_no_assert proto.constants 0 tail hchunk initState [] (by simp)

/-- Witness for C10: the compiled chunk of a one-line print program
executes without ever failing the write-past-top assertion. -/
theorem c10_witness :
    (execute ⟨[.Identifier ("print")],
        [.GetGlobal 0 0, .LoadInt 1 1, .Call 0 1], [], []⟩).2
      ≠ .error .assertFail :=
  c10_no_write_past_top.2 ("print(1)".toList)
    ⟨[.Identifier ("print")], [.GetGlobal 0 0, .LoadInt 1 1, .Call 0 1], [], []⟩
    rfl

/-- C9 (amended): a line comment whose body is non-empty — the marker of
two minus signs, then at least one non-newline character, up to the next
newline — consumes through that newline and yields the dedicated
Comment token (the empty body fails the body matcher, see the
counterexample), and the compiler skips a Comment token emitting no
bytecode. -/
theorem c9_comment_token_and_skip :
    (∀ (body rest : List Char), body ≠ [] → '\n' ∉ body →
        lex ('-' :: '-' :: (body ++ '\n' :: rest)) = some (rest, .Comment))
    ∧ parse ("--x\n".toList) = .ok ⟨[], [], [], []⟩
    ∧ (parse ("-- hi\nprint(7)".toList)).map (fun p => p.bytecodes)
        = (parse ("print(7)".toList)).map (fun p => p.bytecodes) := by
  refine ⟨?_, rfl, rfl⟩
  intro body rest hne hnl
  have htw := takeWhile_append_eq isCommentChar body ('\n' :: rest)
    (fun c hc => by
      unfold isCommentChar
      simp only [decide_eq_true_eq]
      intro he
      rw [he] at hc
      exact hnl hc)
    (fun c hc => by
      simp only [List.head?_cons, Option.some.injEq] at hc
      rw [← hc]
      decide)
  have hcm : lex_comment ('-' :: '-' :: (body ++ '\n' :: rest))
      = some (rest, .Comment) := by
    unfold lex_comment
    have htag : tagP ['-', '-'] ('-' :: '-' :: (body ++ '\n' :: rest))
        = some (body ++ '\n' :: rest) := by
      unfold tagP
      rw [if_pos (by simp [List.isPrefixOf])]
      rfl
    rw [htag]
    dsimp only []
    rw [htw.1, htw.2, if_neg hne]
    rfl
  have hstr : lex_string ('-' :: '-' :: (body ++ '\n' :: rest)) = none := rfl
  unfold lex
  rw [dropWhile_head_false isSpaceChar '-' _ (by decide)]
  simp only [hstr, hcm]

/-- Witness for C9: the comment of body x is lexed as the Comment token
consuming through its newline. -/
theorem c9_witness :
    lex ('-' :: '-' :: ((['x'] : List Char) ++ '\n' :: ([] : List Char)))
      = some ([], .Comment) :=
  c9_comment_token_and_skip.1 ['x'] [] (by decide) (by decide)

/-- A decimal escape body takes the maximal digit run of at most three
digits at the front and parses it as a byte, leaving the rest; the
streaming matcher needs either three digits or further input. -/
theorem dec_byte_spec (ds rest : List Char) (h1 : ds ≠ [])
    (h2 : ds.length ≤ 3) (h3 : ∀ c ∈ ds, isDigitChar c = true)
    (h4 : digitsToNat ds ≤ 255)
    (h5 : ds.length = 3 ∨
      (rest ≠ [] ∧ ∀ c, rest.head? = some c → isDigitChar c = false)) :
    dec_byte (ds ++ rest) = some (rest, digitsToNat ds) := by
  have hhead : ∀ c, (rest.take (3 - ds.length)).head? = some c →
      isDigitChar c = false := by
    intro c hc
    rcases h5 with h5 | ⟨_, h5b⟩
    · rw [show (3 - ds.length) = 0 by omega] at hc
      simp at hc
    · apply h5b
      cases rest with
      | nil => simp at hc
      | cons r0 rs =>
        cases hk : (3 - ds.length) with
        | zero =>
          rw [hk] at hc
          simp at hc
        | succ k =>
          rw [hk] at hc
          simp only [List.take_succ_cons, List.head?_cons] at hc
          simpa using hc
  have htake : ((ds ++ rest).take 3).takeWhile isDigitChar = ds := by
    rw [List.take_append_eq_append_take, List.take_of_length_le h2]
    exact (takeWhile_append_eq isDigitChar ds (rest.take (3 - ds.length))
      h3 hhead).1
  have hdrop : (ds ++ rest).drop ds.length = rest := by simp
  have hguard : ¬ (ds.length < 3 ∧ ds.length = (ds ++ rest).length) := by
    rcases h5 with h5 | ⟨h5a, _⟩
    · omega
    · rintro ⟨hlt, heq⟩
      have hle : (ds ++ rest).length = ds.length + rest.length := by simp
      have hrl : 0 < rest.length := List.length_pos.mpr h5a
      omega
  unfold dec_byte
  rw [htake, if_neg h1, if_neg hguard, if_pos h4, hdrop]

/-- One verbatim fragment: a non-empty run of unescaped characters up to
the next quote or backslash. -/
theorem fragment_lit (bs rest : List Char) (h1 : bs ≠ [])
    (h2 : ∀ c ∈ bs, isLitChar c = true)
    (h3 : ∀ c, rest.head? = some c → isLitChar c = false) :
    fragment (bs ++ rest) = some (rest, .Literal bs) := by
  have htw := takeWhile_append_eq isLitChar bs rest h2 h3
  unfold fragment
  dsimp only []
  rw [htw.1, htw.2, if_pos h1]

/-- The string fold consumes one maximal verbatim run and then stops at
the closing quote, appending the run's UTF-8 bytes. -/
theorem build_string_lit (bs rest : List Char) (acc : List Nat)
    (h1 : bs ≠ []) (h2 : ∀ c ∈ bs, isLitChar c = true) :
    ∀ fuel, 2 ≤ fuel →
      build_string fuel (bs ++ '"' :: rest) acc
        = some ('"' :: rest, acc ++ utf8Bytes bs) := by
  intro fuel hf
  obtain ⟨f, rfl⟩ : ∃ f, fuel = f + 2 := ⟨fuel - 2, by omega⟩
  have hfrag1 : fragment (bs ++ '"' :: rest) = some ('"' :: rest, .Literal bs) :=
    fragment_lit bs ('"' :: rest) h1 h2
      (fun c hc => by
        simp only [List.head?_cons, Option.some.injEq] at hc
        rw [← hc]
        decide)
  have hfrag2 : fragment ('"' :: rest) = none := rfl
  show build_string (f + 1 + 1) (bs ++ '"' :: rest) acc = _
  simp only [build_string, hfrag1]
  simp only [build_string, hfrag2]

/-- C8 (amended): string escape decoding — backslash n yields the single
newline byte 0x0A; a decimal escape of one to three digits whose run is
maximal yields the byte with that decimal value; a hex escape consumes
exactly two characters after the backslash-x: two hex digits yield the
byte with that hex value, while a one-hex-digit escape also consumes and
discards the following non-hex character (so the claimed one-byte-per-
escape-plus-verbatim-rest decoding fails there, see the
counterexample); a backslash-free run decodes to its verbatim bytes, and
decoding stops at the closing quote. -/
theorem c8_string_escape_decoding :
    (∀ rest : List Char, escaped_char ('\\' :: 'n' :: rest) = some (rest, 10))
    ∧ (∀ (ds rest : List Char), ds ≠ [] → ds.length ≤ 3 →
        (∀ c ∈ ds, isDigitChar c = true) → digitsToNat ds ≤ 255 →
        (ds.length = 3 ∨
          (rest ≠ [] ∧ ∀ c, rest.head? = some c → isDigitChar c = false)) →
        escaped_char ('\\' :: (ds ++ rest)) = some (rest, digitsToNat ds))
    ∧ (∀ (a b : Char) (rest : List Char), isHexChar a = true →
        isHexChar b = true →
        escaped_char ('\\' :: 'x' :: a :: b :: rest)
          = some (rest, 16 * hexVal a + hexVal b))
    ∧ (∀ (a c : Char) (rest : List Char), isHexChar a = true →
        isHexChar c = false →
        escaped_char ('\\' :: 'x' :: a :: c :: rest) = some (rest, hexVal a))
    ∧ (∀ (bs rest : List Char), bs ≠ [] → (∀ c ∈ bs, isLitChar c = true) →
        lex_string ('"' :: (bs ++ '"' :: rest))
          = some (rest, .String (utf8Bytes bs)))
    ∧ lex_string ("\"a\\n\\65\\x41b\"".toList)
        = some ([], .String [97, 10, 65, 65, 98]) := by
  refine ⟨fun rest => rfl, ?_, ?_, ?_, ?_, rfl⟩
  · intro ds rest h1 h2 h3 h4 h5
    cases ds with
    | nil => exact absurd rfl h1
    | cons d ds2 =>
      have hd : isDigitChar d = true := h3 d (by simp)
      have hdec := dec_byte_spec (d :: ds2) rest h1 h2 h3 h4 h5
      rw [List.cons_append] at hdec
      have hstep : escaped_char ('\\' :: ((d :: ds2) ++ rest))
          = if d = 'n' then some (ds2 ++ rest, 10)
            else if d = 'r' then some (ds2 ++ rest, 13)
            else if d = 't' then some (ds2 ++ rest, 9)
            else if d = 'a' then some (ds2 ++ rest, 7)
            else if d = 'b' then some (ds2 ++ rest, 8)
            else if d = 'v' then some (ds2 ++ rest, 11)
            else if d = 'f' then some (ds2 ++ rest, 12)
            else escaped_byte (d :: (ds2 ++ rest)) := rfl
      rw [hstep,
          if_neg (pred_ne isDigitChar d 'n' hd (by decide)),
          if_neg (pred_ne isDigitChar d 'r' hd (by decide)),
          if_neg (pred_ne isDigitChar d 't' hd (by decide)),
          if_neg (pred_ne isDigitChar d 'a' hd (by decide)),
          if_neg (pred_ne isDigitChar d 'b' hd (by decide)),
          if_neg (pred_ne isDigitChar d 'v' hd (by decide)),
          if_neg (pred_ne isDigitChar d 'f' hd (by decide))]
      unfold escaped_byte
      rw [hdec]
  · intro a b rest ha hb
    show escaped_byte ('x' :: a :: b :: rest) = _
    unfold escaped_byte
    have hdec : dec_byte ('x' :: a :: b :: rest) = none := rfl
    rw [hdec]
    have hhex : hex_byte ('x' :: a :: b :: rest)
        = some (rest, hexToNat [a, b]) := by
      have hstep : hex_byte ('x' :: a :: b :: rest)
          = if ([a, b].takeWhile isHexChar) = [] then none
            else some (rest, hexToNat ([a, b].takeWhile isHexChar)) := rfl
      rw [hstep, show ([a, b].takeWhile isHexChar) = [a, b] from by
        simp [List.takeWhile_cons, ha, hb]]
      rw [if_neg (by simp)]
    rw [hhex]
    have hval : hexToNat [a, b] = 16 * hexVal a + hexVal b := by
      unfold hexToNat
      simp [List.foldl]
    rw [hval]
  · intro a c rest ha hc
    show escaped_byte ('x' :: a :: c :: rest) = _
    unfold escaped_byte
    have hdec : dec_byte ('x' :: a :: c :: rest) = none := rfl
    rw [hdec]
    have hhex : hex_byte ('x' :: a :: c :: rest)
        = some (rest, hexToNat [a]) := by
      have hstep : hex_byte ('x' :: a :: c :: rest)
          = if ([a, c].takeWhile isHexChar) = [] then none
            else some (rest, hexToNat ([a, c].takeWhile isHexChar)) := rfl
      rw [hstep, show ([a, c].takeWhile isHexChar) = [a] from by
        simp [List.takeWhile_cons, ha, hc]]
      rw [if_neg (by simp)]
    rw [hhex]
    have hval : hexToNat [a] = hexVal a := by
      unfold hexToNat
      simp [List.foldl]
    rw [hval]
  · intro bs rest h1 h2
    unfold lex_string
    dsimp only []
    rw [if_pos rfl]
    rw [build_string_lit bs rest [] h1 h2 _
      (by simp only [List.length_append, List.length_cons]; omega)]
    rfl

/-- Witness for C8: the two-digit decimal escape 65 decodes to the byte
65 and leaves the closing quote unconsumed. -/
theorem c8_witness :
    escaped_char ('\\' :: ((['6', '5'] : List Char) ++ ['"']))
      = some (['"'], digitsToNat ['6', '5']) :=
  c8_string_escape_decoding.2.1 ['6', '5'] ['"'] (by decide) (by decide)
    (by decide) (by decide)
    (.inr ⟨by decide, fun c hc => by
      simp only [List.head?_cons, Option.some.injEq] at hc
      rw [← hc]
      decide⟩)

/-! Numeric literal lemmas. -/

/-- Enumeration of the terminator characters. -/
theorem termChar_cases (c : Char) (h : isTermChar c = true) :
    c = ' ' ∨ c = '\t' ∨ c = '\r' ∨ c = '\n' ∨ c = ')' ∨ c = ';' ∨ c = ',' := by
  have h2 := h
  simp only [isTermChar, Bool.or_eq_true, decide_eq_true_eq] at h2
  tauto

/-- Terminator characters are not digits. -/
theorem termChar_not_digit (c : Char) (h : isTermChar c = true) :
    isDigitChar c = false := by
  rcases termChar_cases c h with h1 | h1 | h1 | h1 | h1 | h1 | h1 <;>
    subst h1 <;> decide

/-- The head of a terminated continuation is never a digit. -/
theorem isTerm_head_not_digit (rest : List Char) (h : IsTerm rest) :
    ∀ c, rest.head? = some c → isDigitChar c = false := by
  intro c hc
  rcases h with rfl | ⟨c2, r, rfl, hterm⟩
  · simp at hc
  · simp only [List.head?_cons, Option.some.injEq] at hc
    rw [← hc]
    exact termChar_not_digit c2 hterm

/-- The head of a terminated continuation differs from every character
outside the terminator class. -/
theorem isTerm_head_ne (rest : List Char) (h : IsTerm rest) (x : Char)
    (hx : isTermChar x = false) :
    ∀ c, rest.head? = some c → c ≠ x := by
  intro c hc
  rcases h with rfl | ⟨c2, r, rfl, hterm⟩
  · simp at hc
  · simp only [List.head?_cons, Option.some.injEq] at hc
    rw [← hc]
    exact pred_ne isTermChar c2 x hterm hx

/-- Digits are not whitespace. -/
theorem digit_not_space (c : Char) (h : isDigitChar c = true) :
    isSpaceChar c = false := by
  rw [Bool.eq_false_iff]
  intro hsp
  have : c = ' ' ∨ c = '\t' ∨ c = '\r' ∨ c = '\n' := by
    have h2 := hsp
    simp only [isSpaceChar, Bool.or_eq_true, decide_eq_true_eq] at h2
    tauto
  rcases this with h1 | h1 | h1 | h1 <;> rw [h1] at h <;> exact absurd h (by decide)

/-- The optional exponent sign on input not starting with a sign. -/
theorem expSign_other (c2 : Char) (rr : List Char) (h1 : c2 ≠ '+')
    (h2 : c2 ≠ '-') : expSign (c2 :: rr) = (1, c2 :: rr) := by
  have hstep : expSign (c2 :: rr)
      = if c2 = '+' then ((1 : Int), rr)
        else if c2 = '-' then ((-1 : Int), rr)
        else ((1 : Int), c2 :: rr) := rfl
  rw [hstep, if_neg h1, if_neg h2]

/-- The digit tail of an exponent evaluates to its signed value. -/
theorem expDigits_spec (sgn : Int) (ed rest : List Char) (h1 : ed ≠ [])
    (h2 : ∀ c ∈ ed, isDigitChar c = true)
    (h3 : ∀ c, rest.head? = some c → isDigitChar c = false) :
    expDigits sgn (ed ++ rest) = some (rest, sgn * (digitsToNat ed : Int)) := by
  have htw := takeWhile_append_eq isDigitChar ed rest h2 h3
  unfold expDigits
  dsimp only []
  rw [htw.1, htw.2, if_neg h1]

/-- expPart on an exponent marker dispatches to sign and digits. -/
theorem expPart_exp (c : Char) (r : List Char) (hc : c = 'e' ∨ c = 'E') :
    expPart (c :: r)
      = (match expSign r with | (sgn, r2) => expDigits sgn r2) := by
  rcases hc with rfl | rfl <;> rfl

/-- expPart fails on anything that is not an exponent marker. -/
theorem expPart_not_exp (c : Char) (l : List Char) (h1 : c ≠ 'e')
    (h2 : c ≠ 'E') : expPart (c :: l) = none := by
  have hstep : expPart (c :: l)
      = if c = 'e' || c = 'E' then
          (match expSign l with | (sgn, r2) => expDigits sgn r2)
        else none := rfl
  rw [hstep, if_neg]
  simp [h1, h2]

/-- expPart fails on a terminated continuation. -/
theorem expPart_isTerm (rest : List Char) (h : IsTerm rest) :
    expPart rest = none := by
  rcases h with rfl | ⟨c, r, rfl, hterm⟩
  · rfl
  · exact expPart_not_exp c r
      (pred_ne isTermChar c 'e' hterm (by decide))
      (pred_ne isTermChar c 'E' hterm (by decide))

/-- The first character after a valid exponent tail's position is its
marker, which is not a digit. -/
theorem expPart_head_not_digit (es : List Char) (e : Int) (h : ExpPart es e) :
    ∀ (rest : List Char) (c : Char),
      (es ++ rest).head? = some c → isDigitChar c = false := by
  rcases h with ⟨ec, sg, sgn, ed, hec, _, _, _⟩
  intro rest c hc
  simp only [List.cons_append, List.head?_cons, Option.some.injEq] at hc
  rw [← hc]
  rcases hec with rfl | rfl <;> decide

/-- A valid exponent tail followed by a non-digit evaluates exactly. -/
theorem expPart_spec (es : List Char) (e : Int) (h : ExpPart es e)
    (rest : List Char)
    (hrest : ∀ c, rest.head? = some c → isDigitChar c = false) :
    expPart (es ++ rest) = some (rest, e) := by
  rcases h with ⟨ec, sg, sgn, ed, hec, hsg, hed1, hed2⟩
  obtain ⟨d0, ed2, rfl⟩ : ∃ d0 ed2, ed = d0 :: ed2 := by
    cases ed with
    | nil => exact absurd rfl hed1
    | cons a b => exact ⟨a, b, rfl⟩
  have hd0 : isDigitChar d0 = true := hed2 d0 (by simp)
  rw [List.cons_append, expPart_exp ec _ hec]
  rcases hsg with ⟨rfl, rfl⟩ | ⟨rfl, rfl⟩ | ⟨rfl, rfl⟩
  · rw [show (([] : List Char) ++ d0 :: ed2) ++ rest = d0 :: (ed2 ++ rest)
      from by simp]
    rw [expSign_other d0 (ed2 ++ rest)
      (pred_ne isDigitChar d0 '+' hd0 (by decide))
      (pred_ne isDigitChar d0 '-' hd0 (by decide))]
    show expDigits 1 ((d0 :: ed2) ++ rest) = _
    rw [expDigits_spec 1 (d0 :: ed2) rest hed1 hed2 hrest]
  · rw [show ((['+'] : List Char) ++ d0 :: ed2) ++ rest
      = '+' :: ((d0 :: ed2) ++ rest) from by simp]
    show expDigits 1 ((d0 :: ed2) ++ rest) = _
    rw [expDigits_spec 1 (d0 :: ed2) rest hed1 hed2 hrest]
  · rw [show ((['-'] : List Char) ++ d0 :: ed2) ++ rest
      = '-' :: ((d0 :: ed2) ++ rest) from by simp]
    show expDigits (-1) ((d0 :: ed2) ++ rest) = _
    rw [expDigits_spec (-1) (d0 :: ed2) rest hed1 hed2 hrest]

/-- Float case one fails unless the input starts with a point. -/
theorem float_case1_not_dot (c : Char) (l : List Char) (h : c ≠ '.') :
    float_case1 (c :: l) = none := by
  unfold float_case1
  dsimp only []
  rw [if_neg h]

/-- Float case one on a point, digits and no exponent. -/
theorem float_case1_dot (fp rest : List Char) (h1 : fp ≠ [])
    (h2 : ∀ c ∈ fp, isDigitChar c = true)
    (h3 : ∀ c, rest.head? = some c → isDigitChar c = false)
    (h4 : expPart rest = none) :
    float_case1 ('.' :: (fp ++ rest)) = some (rest, ratVal [] fp 0) := by
  have htw := takeWhile_append_eq isDigitChar fp rest h2 h3
  unfold float_case1
  dsimp only []
  rw [if_pos rfl, htw.1, htw.2, if_neg h1, h4]

/-- Float case one on a point, digits and an exponent tail. -/
theorem float_case1_dot_exp (fp es rest : List Char) (e : Int)
    (h1 : fp ≠ []) (h2 : ∀ c ∈ fp, isDigitChar c = true)
    (hes : ExpPart es e)
    (hrest : ∀ c, rest.head? = some c → isDigitChar c = false) :
    float_case1 ('.' :: (fp ++ (es ++ rest))) = some (rest, ratVal [] fp e) := by
  have htw := takeWhile_append_eq isDigitChar fp (es ++ rest) h2
    (expPart_head_not_digit es e hes rest)
  unfold float_case1
  dsimp only []
  rw [if_pos rfl, htw.1, htw.2, if_neg h1, expPart_spec es e hes rest hrest]

/-- Float case two fails when the input does not start with a digit. -/
theorem float_case2_none_head (c : Char) (l : List Char)
    (h : isDigitChar c = false) : float_case2 (c :: l) = none := by
  unfold float_case2
  dsimp only []
  rw [show (c :: l).takeWhile isDigitChar = [] from by
    simp [List.takeWhile_cons, h], if_pos rfl]

/-- The optional fraction after the integer digits: a point followed by
at least one digit. -/
theorem floatFrac_dot_some (fp rest : List Char) (hfp1 : fp ≠ [])
    (hfp2 : ∀ c ∈ fp, isDigitChar c = true)
    (hrd : ∀ c, rest.head? = some c → isDigitChar c = false) :
    floatFrac ('.' :: (fp ++ rest)) = (fp, rest) := by
  have htw := takeWhile_append_eq isDigitChar fp rest hfp2 hrd
  unfold floatFrac
  dsimp only []
  rw [if_pos rfl, htw.1, htw.2, if_neg hfp1]

/-- A point not followed by a digit contributes no fraction. -/
theorem floatFrac_dot_empty (rest : List Char)
    (hrd : ∀ c, rest.head? = some c → isDigitChar c = false) :
    floatFrac ('.' :: rest) = ([], '.' :: rest) := by
  have htw : rest.takeWhile isDigitChar = [] := by
    cases rest with
    | nil => rfl
    | cons c r => simp [List.takeWhile_cons, hrd c rfl]
  unfold floatFrac
  dsimp only []
  rw [if_pos rfl, htw, if_pos rfl]

/-- No fraction on input not starting with a point. -/
theorem floatFrac_not_dot (c : Char) (l : List Char) (h : c ≠ '.') :
    floatFrac (c :: l) = ([], c :: l) := by
  unfold floatFrac
  dsimp only []
  rw [if_neg h]

/-- Float case two on digits, an optional fraction and an exponent. -/
theorem float_case2_spec (ip fpart fp es rest : List Char) (e : Int)
    (hip1 : ip ≠ []) (hip2 : ∀ c ∈ ip, isDigitChar c = true)
    (hfpart : fpart = [] ∧ fp = [] ∨
      (fpart = '.' :: fp ∧ fp ≠ [] ∧ ∀ c ∈ fp, isDigitChar c = true))
    (hes : ExpPart es e)
    (hrest : ∀ c, rest.head? = some c → isDigitChar c = false) :
    float_case2 (ip ++ (fpart ++ (es ++ rest))) = some (rest, ratVal ip fp e) := by
  have hexphead := expPart_head_not_digit es e hes rest
  have heshead : ∃ ec est, es = ec :: est ∧ (ec = 'e' ∨ ec = 'E') := by
    rcases hes with ⟨ec, sg, sgn, ed, hec, _, _, _⟩
    exact ⟨ec, sg ++ ed, rfl, hec⟩
  rcases hfpart with ⟨rfl, rfl⟩ | ⟨rfl, hfp1, hfp2⟩
  · rw [show ip ++ (([] : List Char) ++ (es ++ rest)) = ip ++ (es ++ rest)
      from by simp]
    have htw := takeWhile_append_eq isDigitChar ip (es ++ rest) hip2 hexphead
    unfold float_case2
    dsimp only []
    rw [htw.1, if_neg hip1, htw.2]
    obtain ⟨ec, est, rfl, hec⟩ := heshead
    rw [List.cons_append,
      floatFrac_not_dot ec (est ++ rest) (by rcases hec with rfl | rfl <;> decide),
      ← List.cons_append, expPart_spec _ e hes rest hrest]
  · have hdothead : ∀ c, (('.' :: fp) ++ (es ++ rest)).head? = some c →
        isDigitChar c = false := by
      intro c hc
      simp only [List.cons_append, List.head?_cons, Option.some.injEq] at hc
      rw [← hc]
      decide
    have htw := takeWhile_append_eq isDigitChar ip (('.' :: fp) ++ (es ++ rest))
      hip2 hdothead
    unfold float_case2
    dsimp only []
    rw [htw.1, if_neg hip1, htw.2, List.cons_append,
      floatFrac_dot_some fp (es ++ rest) hfp1 hfp2 hexphead,
      expPart_spec es e hes rest hrest]

/-- Float case two fails on digits, point, digits with no following
exponent. -/
theorem float_case2_plain_none (ip fp rest : List Char)
    (hip1 : ip ≠ []) (hip2 : ∀ c ∈ ip, isDigitChar c = true)
    (hfp : ∀ c ∈ fp, isDigitChar c = true) (hrest : IsTerm rest) :
    float_case2 (ip ++ ('.' :: (fp ++ rest))) = none := by
  have hrd := isTerm_head_not_digit rest hrest
  have hdothead : ∀ c, ('.' :: (fp ++ rest)).head? = some c →
      isDigitChar c = false := by
    intro c hc
    simp only [List.head?_cons, Option.some.injEq] at hc
    rw [← hc]
    decide
  have htw := takeWhile_append_eq isDigitChar ip ('.' :: (fp ++ rest))
    hip2 hdothead
  unfold float_case2
  dsimp only []
  rw [htw.1, if_neg hip1, htw.2]
  by_cases hfp0 : fp = []
  · subst hfp0
    rw [show (([] : List Char) ++ rest) = rest from by simp,
      floatFrac_dot_empty rest hrd,
      expPart_not_exp '.' _ (by decide) (by decide)]
  · rw [floatFrac_dot_some fp rest hfp0 hfp hrd, expPart_isTerm rest hrest]

/-- Float case two fails on a plain digit run with a terminated
continuation. -/
theorem float_case2_int_none (ds rest : List Char)
    (hds : ∀ c ∈ ds, isDigitChar c = true) (hrest : IsTerm rest) :
    float_case2 (ds ++ rest) = none := by
  by_cases hds0 : ds = []
  · subst hds0
    rcases hrest with rfl | ⟨c, r, rfl, hterm⟩
    · rfl
    · exact float_case2_none_head c r (termChar_not_digit c hterm)
  · have hrd := isTerm_head_not_digit rest hrest
    have htw := takeWhile_append_eq isDigitChar ds rest hds hrd
    unfold float_case2
    dsimp only []
    rw [htw.1, if_neg hds0, htw.2]
    rcases hrest with rfl | ⟨c, r, rfl, hterm⟩
    · rfl
    · rw [floatFrac_not_dot c r (pred_ne isTermChar c '.' hterm (by decide)),
        expPart_isTerm _ (.inr ⟨c, r, rfl, hterm⟩)]

/-- Float case three on digits, point and trailing digits. -/
theorem float_case3_spec (ip fp rest : List Char)
    (hip1 : ip ≠ []) (hip2 : ∀ c ∈ ip, isDigitChar c = true)
    (hfp : ∀ c ∈ fp, isDigitChar c = true)
    (hrd : ∀ c, rest.head? = some c → isDigitChar c = false) :
    float_case3 (ip ++ ('.' :: (fp ++ rest))) = some (rest, ratVal ip fp 0) := by
  have hdothead : ∀ c, ('.' :: (fp ++ rest)).head? = some c →
      isDigitChar c = false := by
    intro c hc
    simp only [List.head?_cons, Option.some.injEq] at hc
    rw [← hc]
    decide
  have htw := takeWhile_append_eq isDigitChar ip ('.' :: (fp ++ rest))
    hip2 hdothead
  have htw2 := takeWhile_append_eq isDigitChar fp rest hfp hrd
  unfold float_case3
  dsimp only []
  rw [htw.1, if_neg hip1, htw.2]
  dsimp only []
  rw [if_pos rfl, htw2.1, htw2.2]

/-- Float case three fails on a plain digit run with a terminated
continuation. -/
theorem float_case3_int_none (ds rest : List Char)
    (hds : ∀ c ∈ ds, isDigitChar c = true) (hrest : IsTerm rest) :
    float_case3 (ds ++ rest) = none := by
  by_cases hds0 : ds = []
  · subst hds0
    rw [show (([] : List Char) ++ rest) = rest from by simp]
    rcases hrest with rfl | ⟨c, r, rfl, hterm⟩
    · rfl
    · unfold float_case3
      dsimp only []
      rw [show (c :: r).takeWhile isDigitChar = [] from by
        simp [List.takeWhile_cons, termChar_not_digit c hterm], if_pos rfl]
  · have hrd := isTerm_head_not_digit rest hrest
    have htw := takeWhile_append_eq isDigitChar ds rest hds hrd
    unfold float_case3
    dsimp only []
    rw [htw.1, if_neg hds0, htw.2]
    rcases hrest with rfl | ⟨c, r, rfl, hterm⟩
    · rfl
    · dsimp only []
      rw [if_neg (pred_ne isTermChar c '.' hterm (by decide))]

/-- Float case three fails when the input does not start with a digit. -/
theorem float_case3_none_head (c : Char) (l : List Char)
    (h : isDigitChar c = false) : float_case3 (c :: l) = none := by
  unfold float_case3
  dsimp only []
  rw [show (c :: l).takeWhile isDigitChar = [] from by
    simp [List.takeWhile_cons, h], if_pos rfl]

/-- lex_float by its first case. -/
theorem lex_float_one (input r : List Char) (q : ℚ)
    (h1 : float_case1 input = some (r, q)) :
    lex_float input = some (r, .Float q) := by
  unfold lex_float
  rw [h1]

/-- lex_float by its second case. -/
theorem lex_float_two (input r : List Char) (q : ℚ)
    (h1 : float_case1 input = none) (h2 : float_case2 input = some (r, q)) :
    lex_float input = some (r, .Float q) := by
  unfold lex_float
  rw [h1, h2]

/-- lex_float by its third case. -/
theorem lex_float_three (input r : List Char) (q : ℚ)
    (h1 : float_case1 input = none) (h2 : float_case2 input = none)
    (h3 : float_case3 input = some (r, q)) :
    lex_float input = some (r, .Float q) := by
  unfold lex_float
  rw [h1, h2, h3]

/-- lex_float fails when all three cases fail. -/
theorem lex_float_none (input : List Char)
    (h1 : float_case1 input = none) (h2 : float_case2 input = none)
    (h3 : float_case3 input = none) : lex_float input = none := by
  unfold lex_float
  rw [h1, h2, h3]

/-- The string lexer fails off a non-quote head. -/
theorem lex_string_head (c : Char) (l : List Char) (h : c ≠ '"') :
    lex_string (c :: l) = none := by
  unfold lex_string
  dsimp only []
  rw [if_neg h]

/-- The comment lexer fails off a head other than a minus sign. -/
theorem lex_comment_head (c : Char) (l : List Char) (h : c ≠ '-') :
    lex_comment (c :: l) = none := by
  have hpre : ¬ ((['-', '-'] : List Char).isPrefixOf (c :: l) = true) := by
    have hstep : (['-', '-'] : List Char).isPrefixOf (c :: l)
        = (('-' == c) && (['-'] : List Char).isPrefixOf l) := rfl
    rw [hstep]
    simp only [Bool.and_eq_true, beq_iff_eq]
    rintro ⟨he, _⟩
    exact h he.symm
  unfold lex_comment tagP
  rw [if_neg hpre]

/-- The comment lexer fails when the second character is not a minus. -/
theorem lex_comment_minus (d : Char) (l : List Char) (h : d ≠ '-') :
    lex_comment ('-' :: d :: l) = none := by
  have hpre : ¬ ((['-', '-'] : List Char).isPrefixOf ('-' :: d :: l) = true) := by
    have hstep : (['-', '-'] : List Char).isPrefixOf ('-' :: d :: l)
        = (('-' == '-') && (('-' == d) && (([] : List Char).isPrefixOf l))) := rfl
    rw [hstep]
    simp only [Bool.and_eq_true, beq_iff_eq]
    rintro ⟨_, he, _⟩
    exact h he.symm
  unfold lex_comment tagP
  rw [if_neg hpre]

/-- The integer lexer on an unsigned digit run in range. -/
theorem lex_integer_pos (ds rest : List Char) (h1 : ds ≠ [])
    (h2 : ∀ c ∈ ds, isDigitChar c = true)
    (hrd : ∀ c, rest.head? = some c → isDigitChar c = false)
    (h3 : -(2 ^ 63) ≤ (digitsToNat ds : Int) ∧
      (digitsToNat ds : Int) ≤ 2 ^ 63 - 1) :
    lex_integer (ds ++ rest) = some (rest, .Integer (digitsToNat ds)) := by
  obtain ⟨d0, ds2, rfl⟩ : ∃ a b, ds = a :: b := by
    cases ds with
    | nil => exact absurd rfl h1
    | cons a b => exact ⟨a, b, rfl⟩
  have hd0 : isDigitChar d0 = true := h2 d0 (by simp)
  have htw := takeWhile_append_eq isDigitChar (d0 :: ds2) rest h2 hrd
  unfold lex_integer
  rw [List.cons_append]
  dsimp only []
  rw [if_neg (pred_ne isDigitChar d0 '-' hd0 (by decide))]
  dsimp only []
  rw [← List.cons_append, htw.1, htw.2, if_neg h1,
    if_neg (show ¬ ((false : Bool) = true) from by decide), if_pos h3]

/-- The integer lexer on a minus-signed digit run in range. -/
theorem lex_integer_neg (ds rest : List Char) (h1 : ds ≠ [])
    (h2 : ∀ c ∈ ds, isDigitChar c = true)
    (hrd : ∀ c, rest.head? = some c → isDigitChar c = false)
    (h3 : -(2 ^ 63) ≤ -(digitsToNat ds : Int) ∧
      -(digitsToNat ds : Int) ≤ 2 ^ 63 - 1) :
    lex_integer ('-' :: (ds ++ rest))
      = some (rest, .Integer (-(digitsToNat ds : Int))) := by
  have htw := takeWhile_append_eq isDigitChar ds rest h2 hrd
  unfold lex_integer
  dsimp only []
  rw [if_pos (show ('-' : Char) = '-' from rfl)]
  dsimp only []
  rw [htw.1, htw.2, if_neg h1, if_pos (show (true : Bool) = true from rfl), if_pos h3]

/-- Dispatch of the top-level lexer to the float alternative. -/
theorem lex_of_float (input : List Char) (res : List Char × Token)
    (h0 : input.dropWhile isSpaceChar = input)
    (h1 : lex_string input = none) (h2 : lex_comment input = none)
    (h3 : lex_float input = some res) : lex input = some res := by
  unfold lex
  dsimp only []
  rw [h0, h1, h2, h3]

/-- Dispatch of the top-level lexer to the integer alternative. -/
theorem lex_of_integer (input : List Char) (res : List Char × Token)
    (h0 : input.dropWhile isSpaceChar = input)
    (h1 : lex_string input = none) (h2 : lex_comment input = none)
    (h3 : lex_float input = none) (h4 : lex_integer input = some res) :
    lex input = some res := by
  unfold lex
  dsimp only []
  rw [h0, h1, h2, h3, h4]

/-- C7: every valid numeric literal followed by a terminated continuation
lexes as exactly one token consuming exactly the literal — an optionally
minus-signed digit run in signed 64-bit range becomes a single Integer
token with its decimal value, and each of the three float shapes becomes
a single Float token with the literal's exact value; moreover every
literal lexed to a Float contains a decimal point or an exponent marker,
and a literal lexed to an Integer contains neither. -/
theorem c7_numeric_literals_single_token :
    (∀ (s : List Char) (t : Token), NumLit s t → ∀ rest : List Char,
      IsTerm rest → lex (s ++ rest) = some (rest, t)) ∧
    (∀ (s : List Char) (q : ℚ), NumLit s (.Float q) →
      '.' ∈ s ∨ 'e' ∈ s ∨ 'E' ∈ s) ∧
    (∀ (s : List Char) (i : Int), NumLit s (.Integer i) →
      '.' ∉ s ∧ 'e' ∉ s ∧ 'E' ∉ s) := by
  refine ⟨?_, ?_, ?_⟩
  · intro s t h rest hrest
    have hrd := isTerm_head_not_digit rest hrest
    cases h with
    | intLit sg neg ds hsg hds1 hds2 hlo hhi =>
      obtain ⟨d0, ds2, rfl⟩ : ∃ a b, ds = a :: b := by
        cases ds with
        | nil => exact absurd rfl hds1
        | cons a b => exact ⟨a, b, rfl⟩
      have hd0 : isDigitChar d0 = true := hds2 d0 (by simp)
      rcases hsg with ⟨rfl, rfl⟩ | ⟨rfl, rfl⟩
      · rw [show (([] : List Char) ++ d0 :: ds2) ++ rest
            = (d0 :: ds2) ++ rest from by simp]
        apply lex_of_integer
        · rw [List.cons_append]
          exact dropWhile_head_false isSpaceChar d0 _ (digit_not_space d0 hd0)
        · rw [List.cons_append]
          exact lex_string_head d0 _ (pred_ne isDigitChar d0 '"' hd0 (by decide))
        · rw [List.cons_append]
          exact lex_comment_head d0 _ (pred_ne isDigitChar d0 '-' hd0 (by decide))
        · apply lex_float_none
          · rw [List.cons_append]
            exact float_case1_not_dot d0 _
              (pred_ne isDigitChar d0 '.' hd0 (by decide))
          · exact float_case2_int_none _ rest hds2 hrest
          · exact float_case3_int_none _ rest hds2 hrest
        · exact lex_integer_pos (d0 :: ds2) rest hds1 hds2 hrd ⟨hlo, hhi⟩
      · rw [show ((['-'] : List Char) ++ d0 :: ds2) ++ rest
            = '-' :: ((d0 :: ds2) ++ rest) from by simp]
        apply lex_of_integer
        · exact dropWhile_head_false isSpaceChar '-' _ (by decide)
        · exact lex_string_head '-' _ (by decide)
        · rw [List.cons_append]
          exact lex_comment_minus d0 _ (pred_ne isDigitChar d0 '-' hd0 (by decide))
        · apply lex_float_none
          · exact float_case1_not_dot '-' _ (by decide)
          · exact float_case2_none_head '-' _ (by decide)
          · exact float_case3_none_head '-' _ (by decide)
        · exact lex_integer_neg (d0 :: ds2) rest hds1 hds2 hrd ⟨hlo, hhi⟩
    | floatDot fp hfp1 hfp2 =>
      rw [List.cons_append]
      apply lex_of_float
      · exact dropWhile_head_false isSpaceChar '.' _ (by decide)
      · exact lex_string_head '.' _ (by decide)
      · exact lex_comment_head '.' _ (by decide)
      · exact lex_float_one _ rest _
          (float_case1_dot fp rest hfp1 hfp2 hrd (expPart_isTerm rest hrest))
    | floatDotExp fp es e hfp1 hfp2 hes =>
      rw [show ('.' :: (fp ++ es)) ++ rest = '.' :: (fp ++ (es ++ rest))
          from by simp]
      apply lex_of_float
      · exact dropWhile_head_false isSpaceChar '.' _ (by decide)
      · exact lex_string_head '.' _ (by decide)
      · exact lex_comment_head '.' _ (by decide)
      · exact lex_float_one _ rest _
          (float_case1_dot_exp fp es rest e hfp1 hfp2 hes hrd)
    | floatExp ip fpart fp es e hip1 hip2 hfpart hes =>
      obtain ⟨d0, ip2, rfl⟩ : ∃ a b, ip = a :: b := by
        cases ip with
        | nil => exact absurd rfl hip1
        | cons a b => exact ⟨a, b, rfl⟩
      have hd0 : isDigitChar d0 = true := hip2 d0 (by simp)
      rw [show ((d0 :: ip2) ++ (fpart ++ es)) ++ rest
          = d0 :: (ip2 ++ (fpart ++ (es ++ rest))) from by simp]
      apply lex_of_float
      · exact dropWhile_head_false isSpaceChar d0 _ (digit_not_space d0 hd0)
      · exact lex_string_head d0 _ (pred_ne isDigitChar d0 '"' hd0 (by decide))
      · exact lex_comment_head d0 _ (pred_ne isDigitChar d0 '-' hd0 (by decide))
      · apply lex_float_two
        · exact float_case1_not_dot d0 _
            (pred_ne isDigitChar d0 '.' hd0 (by decide))
        · exact float_case2_spec (d0 :: ip2) fpart fp es rest e
            hip1 hip2 hfpart hes hrd
    | floatPlain ip fp hip1 hip2 hfp =>
      obtain ⟨d0, ip2, rfl⟩ : ∃ a b, ip = a :: b := by
        cases ip with
        | nil => exact absurd rfl hip1
        | cons a b => exact ⟨a, b, rfl⟩
      have hd0 : isDigitChar d0 = true := hip2 d0 (by simp)
      rw [show ((d0 :: ip2) ++ ('.' :: fp)) ++ rest
          = d0 :: (ip2 ++ ('.' :: (fp ++ rest))) from by simp]
      apply lex_of_float
      · exact dropWhile_head_false isSpaceChar d0 _ (digit_not_space d0 hd0)
      · exact lex_string_head d0 _ (pred_ne isDigitChar d0 '"' hd0 (by decide))
      · exact lex_comment_head d0 _ (pred_ne isDigitChar d0 '-' hd0 (by decide))
      · apply lex_float_three
        · exact float_case1_not_dot d0 _
            (pred_ne isDigitChar d0 '.' hd0 (by decide))
        · exact float_case2_plain_none (d0 :: ip2) fp rest hip1 hip2 hfp hrest
        · exact float_case3_spec (d0 :: ip2) fp rest hip1 hip2 hfp hrd
  · intro s q h
    cases h with
    | floatDot fp hfp1 hfp2 => exact .inl (by simp)
    | floatDotExp fp es e hfp1 hfp2 hes => exact .inl (by simp)
    | floatExp ip fpart fp es e hip1 hip2 hfpart hes =>
      rcases hes with ⟨ec, sg, sgn, ed, hec, hsg, hed1, hed2⟩
      rcases hec with rfl | rfl
      · exact .inr (.inl (by simp))
      · exact .inr (.inr (by simp))
    | floatPlain ip fp hip1 hip2 hfp => exact .inl (by simp)
  · intro s i h
    cases h with
    | intLit sg neg ds hsg hds1 hds2 hlo hhi =>
      have hnot : ∀ x : Char, isDigitChar x = false → x ≠ '-' → x ∉ sg ++ ds := by
        intro x hx1 hx2 hmem
        rcases List.mem_append.mp hmem with hm | hm
        · rcases hsg with ⟨rfl, hneg⟩ | ⟨rfl, hneg⟩
          · simp at hm
          · simp only [List.mem_singleton] at hm
            exact hx2 hm
        · rw [hds2 x hm] at hx1
          cases hx1
      exact ⟨hnot '.' (by decide) (by decide), hnot 'e' (by decide) (by decide),
        hnot 'E' (by decide) (by decide)⟩

/-- C7 witness: the literal 42.5 followed by a closing parenthesis lexes
to a single Float token of exact value 85/2, leaving the parenthesis. -/
theorem c7_witness :
    lex (['4', '2', '.', '5'] ++ [')'])
      = some ([')'], Token.Float (ratVal ['4', '2'] ['5'] 0)) :=
  c7_numeric_literals_single_token.1 ['4', '2', '.', '5']
    (Token.Float (ratVal ['4', '2'] ['5'] 0))
    (NumLit.floatPlain ['4', '2'] ['5'] (by decide) (by decide) (by decide))
    [')'] (Or.inr ⟨')', [], rfl, by decide⟩)

end Rua

